import Mathlib

/-!
Verification development for the Scheduler repository (src/app.js).

The JavaScript is shallowly embedded: JS strings are `List Char`, JS
objects used as string-keyed dictionaries are insertion-ordered
association lists, mutable globals (`currentDate`, `localStorage`) are
explicit parameters, and calendar dates are civil (year, month, day)
triples measured in whole days (the code normalizes every date to local
midnight before differencing, and the system is specified timezone-naive).
A JS statement that would throw (there is no catch inside the modelled
functions) is modelled by `Option`, `none` standing for the exception.
-/

namespace Scheduler

/-- JS strings, modelled as lists of characters. -/
abbrev Str := List Char

/-- Model of `String.prototype.trimStart`: drop leading whitespace. -/
def jsTrimLeft : Str → Str
  | [] => []
  | c :: cs => if c.isWhitespace then jsTrimLeft cs else c :: cs

/-- Model of `String.prototype.trimEnd`: drop trailing whitespace. -/
def jsTrimRight : Str → Str
  | [] => []
  | c :: cs =>
    match jsTrimRight cs with
    | [] => if c.isWhitespace then [] else [c]
    | r => c :: r

/-- Model of `String.prototype.trim`. -/
def jsTrim (s : Str) : Str := jsTrimLeft (jsTrimRight s)

/-- Model of `s.startsWith(p)`. -/
def startsW (s p : Str) : Bool :=
  match p, s with
  | [], _ => true
  | _ :: _, [] => false
  | a :: ps, b :: ss => b = a && startsW ss ps

/-- Model of `s.endsWith(p)`. -/
def endsW (s p : Str) : Bool := startsW s.reverse p.reverse

/-- Model of `pat` occurring somewhere in `s` (the regex test `/pat/.test(s)`
for a literal pattern). -/
def hasInfix (pat : Str) : Str → Bool
  | [] => startsW [] pat
  | s@(_ :: rest) => startsW s pat || hasInfix pat rest

/-- Model of `s.split(c)` for a one-character separator. -/
def splitCh (c : Char) : Str → List Str
  | [] => [[]]
  | a :: as =>
    match splitCh c as with
    | [] => [[]]
    | h :: t => if a = c then [] :: h :: t else (a :: h) :: t

/-- Model of `parts.join(c)` for a one-character separator. -/
def joinCh (c : Char) : List Str → Str
  | [] => []
  | [p] => p
  | p :: ps => p ++ c :: joinCh c ps

/-! ## Data model (src/app.js)

`ChecklistItem`, one-off `Activity`, and per-template `DayOverride` as
produced and consumed by `parseActivities` / `serializeActivities`. -/

/-- A checklist item `{ text, done }`. -/
structure Item where
  text : Str
  done : Bool
  deriving DecidableEq, Repr

/-- A one-off activity as built by `parseActivities`:
`{ title, time, items, done, isRecurring }`. -/
structure Activity where
  title : Str
  time : Str
  items : List Item
  done : Bool
  isRecurring : Bool
  deriving DecidableEq, Repr

/-- A per-template day override `{ done, itemOverrides, itemState }`.
`itemState` is a JS object keyed by item key, kept in insertion order. -/
structure Override where
  done : Bool
  itemOverrides : List Item
  itemState : List (Str × Bool)
  deriving DecidableEq, Repr

/-- The per-day override map, a JS object keyed by template id, kept in
insertion order. -/
abbrev Overrides := List (Str × Override)

/-- Lookup `overrides[recId]`. -/
def findOv : Overrides → Str → Option Override
  | [], _ => none
  | (k, v) :: rest, r => if k = r then some v else findOv rest r

/-- Assignment `overrides[recId] = v`: replace in place if the key exists,
otherwise append (JS string-keyed insertion order). -/
def setOv : Overrides → Str → Override → Overrides
  | [], r, v => [(r, v)]
  | (k, w) :: rest, r, v =>
    if k = r then (k, v) :: rest else (k, w) :: setOv rest r v

/-- Mutation of the override stored at `recId` (a no-op if absent; in the
source the entry always exists when this is reached). -/
def updOv : Overrides → Str → (Override → Override) → Overrides
  | [], _, _ => []
  | (k, w) :: rest, r, f =>
    if k = r then (k, f w) :: updOv rest r f else (k, w) :: updOv rest r f

/-- Lookup in an `itemState` object. -/
def findState : List (Str × Bool) → Str → Option Bool
  | [], _ => none
  | (k, v) :: rest, r => if k = r then some v else findState rest r

/-- Assignment `itemState[key] = b` with JS insertion-order semantics. -/
def setState : List (Str × Bool) → Str → Bool → List (Str × Bool)
  | [], k, b => [(k, b)]
  | (k0, b0) :: rest, k, b =>
    if k0 = k then (k0, b) :: rest else (k0, b0) :: setState rest k b

/-! ## DayRecordCodec: parseActivities (src/app.js lines 1048-1120) -/

/-- Parser state: accumulated activities and overrides, the pending
activity block, and the key of the override block currently open.  In the
source `currentOverride` is an alias of the object stored in
`overrides[recId]`; the assignment `overrides[recId] = currentOverride`
keeps that alias valid, so tracking the key is faithful. -/
structure PState where
  activities : List Activity
  overrides : Overrides
  current : Option Activity
  currentOverride : Option Str
  deriving Repr

/-- Flush the pending activity (`activities.push(current); current = null`). -/
def flushCur (st : PState) : PState :=
  match st.current with
  | some a => { st with activities := st.activities ++ [a], current := none }
  | none => st

/-- Model of `payload.replace` with the anchored pattern `\s*\[x\]$` for a
`payload` that ends in that bracket marker: drop the marker, then the
whitespace run before it. -/
def stripDoneTag (payload : Str) : Str :=
  jsTrimRight (payload.take (payload.length - 3))

/-- Parse the payload of an `Activity:` header line into a fresh activity
(lines 1065-1074 of src/app.js). -/
def parseActHeader (line : Str) : Activity :=
  let payload := jsTrim (line.drop 9)
  let done := endsW payload ("[x]".toList)
  let clean := if done then stripDoneTag payload else payload
  let parts := splitCh '|' clean
  let time := if 1 < parts.length then jsTrim (parts.headD []) else []
  let title := if 1 < parts.length then jsTrim (joinCh '|' parts.tail) else clean
  ⟨title, time, [], done, false⟩

/-- Model of `line.replace` with the pattern `- \[(x| )\]\s?`: remove the
first occurrence of the list-item marker (with at most one following
whitespace character) anywhere in the line. -/
def matchItemMark : Str → Option Str
  | '-' :: ' ' :: '[' :: c :: ']' :: rest =>
    if c = 'x' || c = ' ' then
      some (match rest with
            | w :: r => if w.isWhitespace then r else w :: r
            | [] => [])
    else none
  | _ => none

/-- Scan for the leftmost item-marker occurrence and remove it. -/
def stripItemMark : Str → Str
  | [] => []
  | c :: rest =>
    match matchItemMark (c :: rest) with
    | some r => r
    | none => c :: stripItemMark rest

/-- One line of `parseActivities`' loop. `none` models the TypeError the
source throws on an `ItemState:` line whose payload splits into fewer
than three fields (`state` is `undefined` and `state.trim()` throws). -/
def stepLine (st : PState) (raw : Str) : Option PState :=
  let line := jsTrim raw
  if line = [] then some st
  else if startsW line ("Activity:".toList) then
    some { flushCur st with
           current := some (parseActHeader line), currentOverride := none }
  else if startsW line ("RecurringOverride:".toList) then
    let payload := jsTrim (line.drop 18)
    let done := endsW payload ("[x]".toList)
    let recId := if done then stripDoneTag payload else payload
    some { flushCur st with
           overrides := setOv (flushCur st).overrides recId ⟨done, [], []⟩,
           currentOverride := some recId }
  else if startsW line ("-".toList) then
    let done := hasInfix ("[x]".toList) line
    let itemText := stripItemMark line
    match st.current with
    | some a =>
      some { st with current := some { a with items := a.items ++ [⟨itemText, done⟩] } }
    | none =>
      match st.currentOverride with
      | some k =>
        let m2 := updOv st.overrides k
          (fun ov => { ov with itemOverrides := ov.itemOverrides ++ [⟨itemText, done⟩] })
        some { st with overrides := m2 }
      | none => some st
  else if startsW line ("ItemState:".toList) then
    let payload := jsTrim (line.drop 10)
    match splitCh '|' payload with
    | recId :: key :: stateF :: _ =>
      let b := jsTrim stateF = ['x']
      let m1 := if (findOv st.overrides recId).isNone
                then st.overrides ++ [(recId, ⟨false, [], []⟩)]
                else st.overrides
      let m2 := updOv m1 recId
        (fun ov => { ov with itemState := setState ov.itemState key b })
      some { st with overrides := m2 }
    | _ => none
  else some st

/-- Fold `stepLine` over a list of lines. -/
def parseLinesAux : PState → List Str → Option PState
  | st, [] => some st
  | st, l :: ls =>
    match stepLine st l with
    | some st2 => parseLinesAux st2 ls
    | none => none

/-- The initial parser state. -/
def initPState : PState := ⟨[], [], none, none⟩

/-- Run the parser loop over an explicit list of lines and assemble the
result (final flush of a pending activity, then both outputs). -/
def parseLinesFn (ls : List Str) : Option (List Activity × Overrides) :=
  (parseLinesAux initPState ls).map
    (fun st => ((flushCur st).activities, st.overrides))

/-- Pure core of `parseActivities`: split on newlines, run the loop, flush
the last pending activity, and return both results.  (The source returns
the activities and stores the overrides in the per-day cache; the caching
side effect is modelled separately by `parseActivities` below.) -/
def parseActivitiesPure (text : Str) : Option (List Activity × Overrides) :=
  parseLinesFn (splitCh '\n' text)

/-! ## DayRecordCodec: serializeActivities (src/app.js lines 1122-1157) -/

/-- The `- [x] text` line emitted for a checklist item. -/
def itemLine (i : Item) : Str :=
  "- [".toList ++ (if i.done then ['x'] else [' ']) ++ "] ".toList ++ i.text

/-- The `Activity:` header line for a one-off activity. -/
def actHeaderLine (a : Activity) : Str :=
  let head := if a.time ≠ [] then a.time ++ " | ".toList ++ a.title else a.title
  "Activity: ".toList ++ head ++ (if a.done then " [x]".toList else [])

/-- The `RecurringOverride:` header line for one override entry. -/
def ovHeaderLine (r : Str) (ov : Override) : Str :=
  "RecurringOverride: ".toList ++ r ++ (if ov.done then " [x]".toList else [])

/-- One `ItemState: recId|key|mark` line. -/
def stateLine (r : Str) (kv : Str × Bool) : Str :=
  "ItemState: ".toList ++ r ++ '|' :: kv.1 ++ '|' :: [if kv.2 then 'x' else ' ']

/-- The lines of one serialized activity block (header then items). -/
def actLines (a : Activity) : List Str :=
  actHeaderLine a :: a.items.map itemLine

/-- The lines of one serialized override block (header, ad hoc items,
then `ItemState` lines). -/
def ovLines (e : Str × Override) : List Str :=
  ovHeaderLine e.1 e.2 ::
    (e.2.itemOverrides.map itemLine ++ e.2.itemState.map (stateLine e.1))

/-- All lines `serializeActivities` writes, each block followed by the
blank separator line the trailing `"\n"` of each block produces. -/
def serializeLines (acts : List Activity) (overrides : Overrides) : List Str :=
  ((acts.filter (fun x => !x.isRecurring)).map (fun a => actLines a ++ [[]])).flatten
    ++ (overrides.map (fun e => ovLines e ++ [[]])).flatten

/-- Join lines, terminating each with a newline (the `out += ... + "\n"`
accumulation of the source). -/
def withNl (ls : List Str) : Str := (ls.map (fun l => l ++ ['\n'])).flatten

/-- Model of `serializeActivities`: one-off activities first, then every
override entry, then `out.trim() + "\n"`.  The override map, read from the
per-day cache in the source, is an explicit argument. -/
def serializeActivities (acts : List Activity) (overrides : Overrides) : Str :=
  jsTrim (withNl (serializeLines acts overrides)) ++ ['\n']

/-! ## DateMath (src/app.js lines 1161-1174)

A calendar date is a civil (year, month, day) triple; `month` uses the JS
0-11 convention.  `toDate` in the source normalizes to local midnight, so a
date is fully described by its triple and its epoch-day number; the system
is timezone-naive (spec section 1), so local time equals UTC here. -/

/-- A civil calendar date: `year`, `month` (0-11 as in JS), `day` (1-based). -/
structure CivilDate where
  year : Int
  month : Int
  day : Int
  deriving DecidableEq, Repr

/-- Days since 1970-01-01 of a civil date (the standard Gregorian
days-from-civil computation; this is the value `toDate(...).getTime()`
divides out to in the source). -/
def epochDay (dt : CivilDate) : Int :=
  let m := dt.month + 1
  let y := if m ≤ 2 then dt.year - 1 else dt.year
  let era := Int.fdiv y 400
  let yoe := y - era * 400
  let mp := if 2 < m then m - 3 else m + 9
  let doy := Int.fdiv (153 * mp + 2) 5 + dt.day - 1
  let doe := yoe * 365 + Int.fdiv yoe 4 - Int.fdiv yoe 100 + doy
  era * 146097 + doe - 719468

/-- Model of `Date.prototype.getDay`: 1970-01-01 was a Thursday (4). -/
def getDayOfWeek (dt : CivilDate) : Int := (epochDay dt + 4).emod 7

/-- `daysBetween(a, b)` (src line 1167): difference of the two midnights in
whole days. -/
def daysBetween (a b : CivilDate) : Int := epochDay b - epochDay a

/-- `weeksBetween(a, b)` = `Math.floor(daysBetween / 7)` (src line 1172). -/
def weeksBetween (a b : CivilDate) : Int := Int.fdiv (daysBetween a b) 7

/-! ## RecurrenceEngine: appliesOnDate (src/app.js lines 1176-1211) -/

/-- A template item `{ id?, text }` (normalized shape from `loadRecurring`). -/
structure TplItem where
  id : Option Str
  text : Str
  deriving DecidableEq, Repr

/-- The `recurrence` object of a template, including the legacy singular
`dayOfWeek` / `dayOfMonth` fields the code still reads. -/
structure Recurrence where
  type : Str
  interval : Int
  daysOfWeek : Option (List Int)
  dayOfWeek : Option Int
  daysOfMonth : Option (List Int)
  dayOfMonth : Option Int
  deriving DecidableEq, Repr

/-- A recurring template. -/
structure Template where
  id : Str
  title : Str
  time : Str
  items : List TplItem
  recurrence : Recurrence
  startDate : Option CivilDate
  endDate : Option CivilDate
  deriving DecidableEq, Repr

/-- JS remainder `%` (sign of the dividend) is `Int.tmod`. -/
def jsRem (a b : Int) : Int := Int.tmod a b

/-- `appliesOnDate(tpl, dateKey)` (src lines 1176-1211).
`Math.max(1, Number(rec.interval || 1))` collapses to `max 1 interval` for
integer inputs (`0 || 1` is 1 and `max 1 0` is also 1). -/
def appliesOnDate (tpl : Template) (date : CivilDate) : Bool :=
  let rec_ := tpl.recurrence
  let interval := max 1 rec_.interval
  let beforeStart := match tpl.startDate with
    | some s => decide (epochDay date < epochDay s)
    | none => false
  let afterEnd := match tpl.endDate with
    | some e => decide (epochDay e < epochDay date)
    | none => false
  if beforeStart then false
  else if afterEnd then false
  else if rec_.type = "daily".toList then
    let anchor := tpl.startDate.getD date
    let diff := daysBetween anchor date
    jsRem diff interval = 0
  else if rec_.type = "weekly".toList then
    let targetDays := rec_.daysOfWeek.getD
      (match rec_.dayOfWeek with | some w => [w] | none => [])
    if !targetDays.contains (getDayOfWeek date) then false
    else
      let anchor := tpl.startDate.getD date
      jsRem (weeksBetween anchor date) interval = 0
  else if rec_.type = "monthly".toList then
    let targetDays := rec_.daysOfMonth.getD
      (match rec_.dayOfMonth with | some d => [d] | none => [])
    if !targetDays.contains date.day then false
    else
      let startY := match tpl.startDate with | some s => s.year | none => date.year
      let startM := match tpl.startDate with | some s => s.month | none => date.month
      let monthsDiff := (date.year - startY) * 12 + (date.month - startM)
      jsRem monthsDiff interval = 0
  else false

/-! ## OverrideStore (src/app.js lines 1722-1729): the per-day
`dayOverrides:<key>` entries of localStorage, modelled as an
insertion-ordered association list from day key to override map. -/

/-- The localStorage slice holding the per-day override maps. -/
abbrev OvStore := List (Str × Overrides)

/-- `getDayOverrides(dateKey)`: a missing entry reads as the empty map. -/
def getDayOverrides : OvStore → Str → Overrides
  | [], _ => []
  | (k, v) :: rest, dk => if k = dk then v else getDayOverrides rest dk

/-- `saveDayOverrides(dateKey, obj)`. -/
def saveDayOverrides : OvStore → Str → Overrides → OvStore
  | [], dk, v => [(dk, v)]
  | (k, w) :: rest, dk, v =>
    if k = dk then (k, v) :: rest else (k, w) :: saveDayOverrides rest dk v

/-- `parseActivities` as the source has it, including its side effect
(src lines 1113-1119): the parsed overrides are saved under
`currentDateKey()` — the key of the *globally selected* day, not the day
whose file supplied `text`. -/
def parseActivities (text : Str) (currentKey : Str) (store : OvStore) :
    Option (List Activity × OvStore) :=
  (parseActivitiesPure text).map
    (fun p => (p.1, saveDayOverrides store currentKey p.2))

/-- The seven `parseActivities` calls `renderWeekView` performs
(src lines 1617-1624): each week day's file text is parsed while
`currentDate` — hence `currentKey` — stays whatever day is open. -/
def renderWeekViewParses (texts : List Str) (currentKey : Str)
    (store : OvStore) : Option OvStore :=
  match texts with
  | [] => some store
  | t :: ts =>
    match parseActivities t currentKey store with
    | some (_, store2) => renderWeekViewParses ts currentKey store2
    | none => none

/-- `toggleRecurringDoneForDay(recurringId, checked)` (src lines 2005-2013),
with the globals (`currentDateKey()`, localStorage) explicit. -/
def toggleRecurringDoneForDay (store : OvStore) (dateKey : Str)
    (recurringId : Str) (checked : Bool) : OvStore :=
  let overrides := getDayOverrides store dateKey
  let ov := (findOv overrides recurringId).getD ⟨false, [], []⟩
  saveDayOverrides store dateKey (setOv overrides recurringId { ov with done := checked })

/-! ## ActivityMerger: buildDisplayActivities (src/app.js lines 1656-1710) -/

/-- A display checklist item; `tplKey` models `_key`/`_fromTpl` and
`overrideIdx` models `_overrideIdx`/`_fromOverride`. -/
structure DispItem where
  text : Str
  done : Bool
  tplKey : Option Str
  overrideIdx : Option Nat
  deriving DecidableEq, Repr

/-- A merged display activity. One-off activities parsed from a day record
carry no `id`, hence the `Option`. -/
structure DisplayActivity where
  id : Option Str
  title : Str
  time : Str
  items : List DispItem
  done : Bool
  isRecurring : Bool
  deriving DecidableEq, Repr

/-- The one-off part of the merge: `out.push({ ...act, isRecurring: false })`. -/
def displayOneOff (a : Activity) : DisplayActivity :=
  ⟨none, a.title, a.time, a.items.map (fun i => ⟨i.text, i.done, none, none⟩),
   a.done, false⟩

/-- The expansion of one applicable template (src lines 1673-1707). -/
def instDisplay (overrides : Overrides) (tpl : Template) : DisplayActivity :=
  let ov := (findOv overrides tpl.id).getD ⟨false, [], []⟩
  let done := ov.done
  let tplItems := tpl.items.enum.map (fun p =>
    let key := match p.2.id with
      | some k => if k = [] then "tplItem_".toList ++ (Nat.repr p.1).toList else k
      | none => "tplItem_".toList ++ (Nat.repr p.1).toList
    let dayDone := (findState ov.itemState key).getD false
    (⟨p.2.text, if done then true else dayDone, some key, none⟩ : DispItem))
  let ovItems := ov.itemOverrides.enum.map (fun p =>
    (⟨p.2.text, if done then true else p.2.done, none, some p.1⟩ : DispItem))
  ⟨some tpl.id, (if tpl.title = [] then "(Recurring)".toList else tpl.title),
   tpl.time, tplItems ++ ovItems, done, true⟩

/-- The per-template emission step of `buildDisplayActivities`: skipped when
the id is falsy or the template does not apply that day. -/
def tplEmit (overrides : Overrides) (dateKey : CivilDate) (tpl : Template) :
    Option DisplayActivity :=
  if tpl.id ≠ [] ∧ appliesOnDate tpl dateKey then
    some (instDisplay overrides tpl)
  else none

/-- `buildDisplayActivities()` with the globals (`currentActivities`,
`recurringEvents`, the day's overrides, the current date) explicit:
one-off activities first, then every applicable template's instance. -/
def buildDisplayActivities (currentActivities : List Activity)
    (recurringEvents : List Template) (overrides : Overrides)
    (dateKey : CivilDate) : List DisplayActivity :=
  currentActivities.map displayOneOff
    ++ recurringEvents.filterMap (tplEmit overrides dateKey)

/-- The recurring-list delete handler (src lines 2738-2744):
`recurringEvents.splice(i, 1)`; the override store is not touched. -/
def deleteRecurringHandler (tpls : List Template) (i : Nat) (store : OvStore) :
    List Template × OvStore :=
  (tpls.eraseIdx i, store)

/-! ## The display sort (renderActivities, src lines 1775-1780)

`Array.prototype.sort` is stable; a stable sort against a consistent
comparator has a unique result, modelled by insertion sort.  For the
`HH:MM` strings compared here, `localeCompare` agrees with code-point
lexicographic comparison. -/

/-- Lexicographic (code-point) strict order, `a.localeCompare(b) < 0`. -/
def strLt : Str → Str → Bool
  | [], [] => false
  | [], _ :: _ => true
  | _ :: _, [] => false
  | a :: as, b :: bs => if a = b then strLt as bs else decide (a < b)

/-- The comparator of renderActivities returning a negative value:
an untimed activity is never strictly first, a timed one precedes any
untimed one, and two timed ones compare by time. -/
def cmpLt (a b : DisplayActivity) : Bool :=
  if a.time = [] then false
  else if b.time = [] then true
  else strLt a.time b.time

/-- Stable insertion of a (later) element after every strictly-smaller one. -/
def insertDisp (x : DisplayActivity) : List DisplayActivity → List DisplayActivity
  | [] => [x]
  | y :: ys => if cmpLt y x then y :: insertDisp x ys else x :: y :: ys

/-- The stable sort renderActivities applies to the display list. -/
def sortDisplay : List DisplayActivity → List DisplayActivity
  | [] => []
  | x :: xs => insertDisp x (sortDisplay xs)

/-! ## parseTimeStr (src/app.js lines 1036-1040) -/

/-- The regex `^([01]\d|2[0-3]):([0-5]\d)$`. -/
def validHHMM : Str → Bool
  | [h1, h2, c, m1, m2] =>
    (((h1 = '0' || h1 = '1') && h2.isDigit)
      || (h1 = '2' && (h2 = '0' || h2 = '1' || h2 = '2' || h2 = '3')))
    && c = ':' && ('0' ≤ m1 && m1 ≤ '5') && m2.isDigit
  | _ => false

/-- `parseTimeStr(str)`: the input if it matches `HH:MM`, else `""`. -/
def parseTimeStr (s : Str) : Str :=
  if s = [] then [] else if validHHMM s then s else []

/-! ## Auxiliary definitions used to state the claims -/

/-- The sort key of the display comparator: untimed activities share one
key (`none`, ordered last); timed ones are keyed by their time string. -/
def dispKey (d : DisplayActivity) : Option Str :=
  if d.time = [] then none else some d.time

/-- The weekly Monday/Wednesday template of claim C7: `daysOfWeek = [1,3]`,
`interval = 2`, anchored at `s`, no end bound. -/
def weeklyMonWed (s : CivilDate) : Template :=
  ⟨"w1".toList, "W".toList, [], [],
   ⟨"weekly".toList, 2, some [1, 3], none, none, none⟩, some s, none⟩

/-- Lines up to per-line trimming and blank lines: the view of a text the
parser loop is sensitive to. -/
def normalizeLines (ls : List Str) : List Str :=
  (ls.map jsTrim).filter (fun l => l ≠ [])

/-- A raw line is safe for the `ItemState:` branch: either it is not an
`ItemState:` line, or its payload splits on `|` into at least three
fields (otherwise the source throws a TypeError). -/
def itemStateArityOk (l : Str) : Bool :=
  !startsW (jsTrim l) ("ItemState:".toList)
    || decide (3 ≤ (splitCh '|' (jsTrim ((jsTrim l).drop 10))).length)

/-- A raw line no branch of the parser loop recognizes (blank lines are
recognized and skipped; this covers the unrecognized ones). -/
def unrecognizedLine (l : Str) : Bool :=
  !startsW (jsTrim l) ("Activity:".toList)
    && !startsW (jsTrim l) ("RecurringOverride:".toList)
    && !startsW (jsTrim l) ("-".toList)
    && !startsW (jsTrim l) ("ItemState:".toList)

/-- No character of `s` is a newline (serialized fields must satisfy this
for the emitted record to keep its line structure). -/
def noNl (s : Str) : Prop := '\n' ∉ s

/-- All strings embedded in an activity are newline-free. -/
def actNoNl (a : Activity) : Prop :=
  noNl a.title ∧ noNl a.time ∧ ∀ i ∈ a.items, noNl i.text

/-- All strings embedded in an override entry are newline-free. -/
def ovNoNl (e : Str × Override) : Prop :=
  noNl e.1 ∧ (∀ i ∈ e.2.itemOverrides, noNl i.text) ∧ ∀ kv ∈ e.2.itemState, noNl kv.1

/-- The conditions on a parse result under which re-serialization is
faithful line by line; all of them hold for every value `parseActivities`
can produce except the four marked ones, which the counterexamples to C1
show can fail:
`time = "" → no bar in title` (a), `override ids trim-stable` (b) and not
ending in the done marker when the entry is not done (c), and item texts
free of trailing whitespace (d) and of an embedded `[x]` when not done (e).
-/
def WfItemText (i : Item) : Prop :=
  jsTrimRight i.text = i.text
    ∧ (i.done = false → hasInfix ("[x]".toList) i.text = false)

/-- Append one character to the last line of a line list (how a split
result changes when a non-separator character is appended to the text). -/
def appendLast (ls : List Str) (a : Char) : List Str :=
  match ls with
  | [] => [[a]]
  | [h] => [h ++ [a]]
  | h :: t => h :: appendLast t a

/-- The invariants a one-off activity must satisfy for its serialized
block to parse back to itself.  All but `tbar` and the two item-text
conditions of `WfItemText` hold for every activity `parseActivities`
produces. -/
structure ActWf (a : Activity) : Prop where
  recb : a.isRecurring = false
  ttrim : jsTrim a.title = a.title
  timetrim : jsTrim a.time = a.time
  tnl : '\n' ∉ a.title
  timenl : '\n' ∉ a.time
  timebar : '|' ∉ a.time
  tnodone : a.done = false → endsW a.title ("[x]".toList) = false
  tbar : a.time = [] → '|' ∉ a.title
  items : ∀ i ∈ a.items, '\n' ∉ i.text ∧ WfItemText i

/-- The invariants an override entry must satisfy for its serialized block
to parse back to itself.  All but `rtrim`, `rnodone` and the `WfItemText`
conditions hold for every entry `parseActivities` produces. -/
structure OvWf (e : Str × Override) : Prop where
  rtrim : jsTrim e.1 = e.1
  rnl : '\n' ∉ e.1
  rnodone : e.2.done = false → endsW e.1 ("[x]".toList) = false
  rbar : e.2.itemState ≠ [] → '|' ∉ e.1
  io : ∀ i ∈ e.2.itemOverrides, '\n' ∉ i.text ∧ WfItemText i
  keys : ∀ kv ∈ e.2.itemState, '\n' ∉ kv.1 ∧ '|' ∉ kv.1
  knodup : (e.2.itemState.map Prod.fst).Nodup

/-- The parser-state transition one whole serialized activity block
induces: the pending activity is flushed and the block's activity becomes
the pending one. -/
def actStep (st : PState) (a : Activity) : PState :=
  { flushCur st with current := some a, currentOverride := none }

/-- The parser-state transition one whole serialized override block
induces: the pending activity is flushed and the entry is appended. -/
def ovStep (st : PState) (e : Str × Override) : PState :=
  let st2 := flushCur st
  { st2 with overrides := st2.overrides ++ [e], currentOverride := some e.1 }

/-- Intermediate decidability instances, registered so that equality tests
over deeply nested codec values stay within the synthesizer's term-size
budget. -/
instance instInhabOverride : Inhabited Override := ⟨⟨false, [], []⟩⟩

instance instInhabActivity : Inhabited Activity := ⟨⟨[], [], [], false, false⟩⟩

instance instInhabStrOverride : Inhabited (Str × Override) := ⟨([], default)⟩

instance decEqStrOverride : DecidableEq (Str × Override) := inferInstance

instance decEqOverrides : DecidableEq Overrides := inferInstance

instance decEqDayEntry : DecidableEq (Str × Overrides) := inferInstance

instance decEqOvStore : DecidableEq OvStore := inferInstance

instance decEqParseResult : DecidableEq (List Activity × Overrides) := inferInstance

instance decEqParseStoreResult : DecidableEq (List Activity × OvStore) := inferInstance


/-- The invariants the parser guarantees for every activity it builds. -/
def ActInv (a : Activity) : Prop :=
  a.isRecurring = false ∧ jsTrim a.title = a.title ∧ jsTrim a.time = a.time
    ∧ '\n' ∉ a.title ∧ '\n' ∉ a.time ∧ '|' ∉ a.time
    ∧ (a.done = false → endsW a.title ("[x]".toList) = false)
    ∧ (∀ i ∈ a.items, '\n' ∉ i.text)

/-- The invariants the parser guarantees for every override entry. -/
def OvInv (e : Str × Override) : Prop :=
  '\n' ∉ e.1 ∧ (e.2.itemState ≠ [] → '|' ∉ e.1)
    ∧ (∀ kv ∈ e.2.itemState, '\n' ∉ kv.1 ∧ '|' ∉ kv.1)
    ∧ (e.2.itemState.map Prod.fst).Nodup
    ∧ (∀ i ∈ e.2.itemOverrides, '\n' ∉ i.text)

/-- The parser-state invariant maintained by every loop iteration. -/
def StInv (st : PState) : Prop :=
  (∀ a ∈ st.activities, ActInv a)
    ∧ (∀ a, st.current = some a → ActInv a)
    ∧ (∀ e ∈ st.overrides, OvInv e)
    ∧ (st.overrides.map Prod.fst).Nodup

instance decWfItemText (i : Item) : Decidable (WfItemText i) := by
  unfold WfItemText
  infer_instance

instance decNoNl (s : Str) : Decidable (noNl s) := by
  unfold noNl
  infer_instance

/-! # Theorems -/

/-- C10: an `Activity:` line with a `|` separator copies the text before
the first `|` into `time` unvalidated; here `99:99` is parsed as the time
even though it is not a valid `HH:MM` string, which `parseTimeStr` (used
on user input) would have replaced with the empty string. -/
theorem C10_time_unvalidated :
    parseActivitiesPure ("Activity: 99:99 | X".toList)
      = some ([⟨"X".toList, "99:99".toList, [], false, false⟩], [])
    ∧ parseTimeStr ("99:99".toList) = []
    ∧ "99:99".toList ≠ [] := by
  refine ⟨by decide, by decide, by decide⟩

/-- C4 (code bug evidence): `parseActivities` stores the overrides it
extracts under `currentDateKey()`, the key of the globally selected day.
When `renderWeekView` parses the record of 2024-01-15 while 2024-01-10 is
the open day, the override block of 2024-01-15 is written to the cache
entry of 2024-01-10, and the entry of 2024-01-15 stays empty. -/
theorem C4_weekview_cache_clobber :
    parseActivities ("RecurringOverride: r1 [x]".toList) ("2024-01-10".toList) []
      = some ([], [("2024-01-10".toList, [("r1".toList, ⟨true, [], []⟩)])])
    ∧ getDayOverrides [("2024-01-10".toList, [("r1".toList, ⟨true, [], []⟩)])]
        ("2024-01-15".toList) = []
    ∧ getDayOverrides [("2024-01-10".toList, [("r1".toList, ⟨true, [], []⟩)])]
        ("2024-01-10".toList) = [("r1".toList, ⟨true, [], []⟩)] := by
  refine ⟨by decide, by decide, by decide⟩

/-- C1 (counterexample): the record produced by serializing the valid
one-off activity titled `|a|b` (no time) parses to an activity titled
`a|b`, but serializing that parse and parsing again yields title `b` with
time `a` — the round trip changes the logical content. -/
theorem C1_counterexample :
    serializeActivities [⟨"|a|b".toList, [], [], false, false⟩] []
      = "Activity: |a|b\n".toList
    ∧ parseActivitiesPure ("Activity: |a|b\n".toList)
      = some ([⟨"a|b".toList, [], [], false, false⟩], [])
    ∧ serializeActivities [⟨"a|b".toList, [], [], false, false⟩] []
      = "Activity: a|b\n".toList
    ∧ parseActivitiesPure ("Activity: a|b\n".toList)
      = some ([⟨"b".toList, "a".toList, [], false, false⟩], [])
    ∧ (([⟨"b".toList, "a".toList, [], false, false⟩], []) : List Activity × Overrides)
      ≠ (([⟨"a|b".toList, [], [], false, false⟩], []) : List Activity × Overrides) := by
  refine ⟨by decide, by decide, by decide, by decide, by decide⟩

/-- C2 (counterexample): `serializeActivities` has no non-default filter —
an override entry whose state is all defaults (`done = false`, no
`itemOverrides`, no `itemState`) still produces a `RecurringOverride`
block, while an empty override map produces none. -/
theorem C2_counterexample :
    serializeActivities [] [("r1".toList, ⟨false, [], []⟩)]
      = "RecurringOverride: r1\n".toList
    ∧ serializeActivities [] [] = "\n".toList := by
  refine ⟨by decide, by decide⟩

/-- C3 (counterexample): `parseActivities` is not total — an `ItemState:`
line whose payload has fewer than three `|`-separated fields makes the
source throw (`state` is `undefined`, so `state.trim()` raises a
TypeError), modelled here by `none`. -/
theorem C3_counterexample :
    parseActivitiesPure ("ItemState: a".toList) = none := by decide

/-- C7 (counterexample): with the template anchored at Monday 2024-01-15,
Monday 2024-01-01 has an even week offset (−2) from the anchor week, yet
`appliesOnDate` is false there because the date precedes `startDate`. -/
theorem C7_counterexample :
    getDayOfWeek ⟨2024, 0, 15⟩ = 1
    ∧ getDayOfWeek ⟨2024, 0, 1⟩ = 1
    ∧ jsRem (weeksBetween ⟨2024, 0, 15⟩ ⟨2024, 0, 1⟩) 2 = 0
    ∧ appliesOnDate (weeklyMonWed ⟨2024, 0, 15⟩) ⟨2024, 0, 1⟩ = false := by
  refine ⟨by decide, by decide, by decide, by decide⟩

/-- C6: a daily template with `interval = 1` and no `startDate` applies on
every date not excluded by an `endDate` bound. -/
theorem C6_daily_interval_one_always (tpl : Template) (d : CivilDate)
    (ht : tpl.recurrence.type = "daily".toList)
    (hi : tpl.recurrence.interval = 1)
    (hs : tpl.startDate = none)
    (he : ∀ e, tpl.endDate = some e → epochDay d ≤ epochDay e) :
    appliesOnDate tpl d = true := by
  cases hE : tpl.endDate with
  | none =>
    simp [appliesOnDate, ht, hi, hs, hE, daysBetween, jsRem]
  | some e =>
    have h1 := he e hE
    simp [appliesOnDate, ht, hi, hs, hE, daysBetween, jsRem, not_lt.mpr h1]

/-- Witness for C6 at a concrete daily template and date. -/
theorem C6_daily_interval_one_always_witness :
    appliesOnDate
      ⟨"d1".toList, "D".toList, [], [],
        ⟨"daily".toList, 1, none, none, none, none⟩, none, none⟩
      ⟨2024, 5, 3⟩ = true :=
  C6_daily_interval_one_always _ _ rfl rfl rfl (fun _ h => nomatch h)

/-- C7 (amended): for the Mon/Wed template with `interval = 2` anchored at
a Monday `s`, `appliesOnDate` holds exactly on the Mondays and Wednesdays
on or after the start date whose week offset from the anchor week is even
— the "on or after the start date" restriction being what the
counterexample forces onto the claim. -/
theorem C7_weekly_mon_wed_even_weeks (s d : CivilDate)
    (hs : getDayOfWeek s = 1) :
    appliesOnDate (weeklyMonWed s) d = true ↔
      (epochDay s ≤ epochDay d ∧ (getDayOfWeek d = 1 ∨ getDayOfWeek d = 3)
        ∧ jsRem (weeksBetween s d) 2 = 0) := by
  by_cases hlt : epochDay d < epochDay s
  · simp [appliesOnDate, weeklyMonWed, hlt]
  · by_cases hdow : getDayOfWeek d = 1 ∨ getDayOfWeek d = 3
    · simp [appliesOnDate, weeklyMonWed, hlt, hdow]
      intro _; omega
    · simp [appliesOnDate, weeklyMonWed, hlt, hdow]

/-- Witness for C7 at the anchor Monday 2024-01-15 and the Wednesday of
the same week, 2024-01-17. -/
theorem C7_weekly_mon_wed_even_weeks_witness :
    appliesOnDate (weeklyMonWed ⟨2024, 0, 15⟩) ⟨2024, 0, 17⟩ = true :=
  (C7_weekly_mon_wed_even_weeks ⟨2024, 0, 15⟩ ⟨2024, 0, 17⟩ (by decide)).mpr
    ⟨by decide, by decide, by decide⟩

/-- The override map written by `saveDayOverrides` is what
`getDayOverrides` reads back for the same day key. -/
theorem getDayOverrides_save_same (st : OvStore) (k : Str) (v : Overrides) :
    getDayOverrides (saveDayOverrides st k v) k = v := by
  induction st with
  | nil => simp [saveDayOverrides, getDayOverrides]
  | cons e rest ih =>
    obtain ⟨k0, w⟩ := e
    by_cases h : k0 = k <;> simp [saveDayOverrides, getDayOverrides, h, ih]

/-- Assigning `overrides[recId]` makes the lookup of `recId` return the
assigned value. -/
theorem findOv_setOv_same (m : Overrides) (r : Str) (v : Override) :
    findOv (setOv m r v) r = some v := by
  induction m with
  | nil => simp [setOv, findOv]
  | cons e rest ih =>
    obtain ⟨k0, w⟩ := e
    by_cases h : k0 = r <;> simp [setOv, findOv, h, ih]

/-- C5: when the override entry of template id `r` has `done = true`,
every item of every recurring display activity with that id — both
template-defined items, whatever their `itemState`, and all ad hoc
`itemOverrides` items — reports `done = true` in `buildDisplayActivities`
output; and `toggleRecurringDoneForDay(r, true)` establishes exactly that
`done = true` override state for the next build. -/
theorem C5_done_cascades_to_items (acts : List Activity)
    (tpls : List Template) (ovs : Overrides) (day : CivilDate)
    (store : OvStore) (dk r : Str) (ov : Override)
    (hf : findOv ovs r = some ov) (hdone : ov.done = true) :
    (∀ d ∈ buildDisplayActivities acts tpls ovs day,
        d.isRecurring = true → d.id = some r → ∀ it ∈ d.items, it.done = true)
    ∧ ∃ ov2,
        findOv (getDayOverrides (toggleRecurringDoneForDay store dk r true) dk) r
          = some ov2 ∧ ov2.done = true := by
  constructor
  · intro d hd hrec hid it hit
    rcases List.mem_append.mp hd with h | h
    · rcases List.mem_map.mp h with ⟨a, _, rfl⟩
      simp [displayOneOff] at hrec
    · rcases List.mem_filterMap.mp h with ⟨t, _, hemit⟩
      by_cases hc : t.id ≠ [] ∧ appliesOnDate t day = true
      · rw [tplEmit, if_pos hc] at hemit
        obtain rfl := Option.some.inj hemit
        have hid2 : t.id = r := by simpa [instDisplay] using hid
        subst hid2
        simp [instDisplay, hf, hdone] at hit
        rcases hit with ⟨p, w, _, heq⟩ | ⟨p, w, _, heq⟩ <;> rw [← heq]
      · rw [tplEmit, if_neg hc] at hemit
        exact Option.noConfusion hemit
  · have h2 : findOv
        (getDayOverrides (toggleRecurringDoneForDay store dk r true) dk) r
        = some { (findOv (getDayOverrides store dk) r).getD ⟨false, [], []⟩ with
                 done := true } := by
      rw [toggleRecurringDoneForDay, getDayOverrides_save_same, findOv_setOv_same]
    exact ⟨_, h2, rfl⟩

/-- Witness for C5 at a concrete override map with a done entry. -/
theorem C5_done_cascades_to_items_witness :
    (∀ d ∈ buildDisplayActivities [] [] [("r".toList, ⟨true, [], []⟩)] ⟨2024, 0, 15⟩,
        d.isRecurring = true → d.id = some ("r".toList) →
        ∀ it ∈ d.items, it.done = true)
    ∧ ∃ ov2,
        findOv
          (getDayOverrides
            (toggleRecurringDoneForDay [] ("2024-01-15".toList) ("r".toList) true)
            ("2024-01-15".toList)) ("r".toList)
          = some ov2 ∧ ov2.done = true :=
  C5_done_cascades_to_items [] [] [("r".toList, ⟨true, [], []⟩)] ⟨2024, 0, 15⟩
    [] ("2024-01-15".toList) ("r".toList) ⟨true, [], []⟩ (by decide) (by decide)

/-- Removing the element at the index of `t` from a template list splits
around it (`recurringEvents.splice(i, 1)`). -/
theorem eraseIdx_middle (l1 l2 : List Template) (t : Template) :
    (l1 ++ t :: l2).eraseIdx l1.length = l1 ++ l2 := by
  induction l1 with
  | nil => simp [List.eraseIdx]
  | cons a rest ih => simp [List.eraseIdx, ih]

/-- C9: the delete handler removes exactly the chosen template and leaves
the override store untouched; `buildDisplayActivities` before deletion is
the after-deletion list with only that template's instance inserted, and —
when no other template shares the id — no recurring instance with the
deleted id remains. -/
theorem C9_delete_template_frame (l1 l2 : List Template) (t : Template)
    (acts : List Activity) (ovs : Overrides) (day : CivilDate)
    (store : OvStore) (hid : t.id ∉ (l1 ++ l2).map Template.id) :
    deleteRecurringHandler (l1 ++ t :: l2) l1.length store = (l1 ++ l2, store)
    ∧ buildDisplayActivities acts (l1 ++ t :: l2) ovs day
        = acts.map displayOneOff ++ l1.filterMap (tplEmit ovs day)
          ++ (tplEmit ovs day t).toList ++ l2.filterMap (tplEmit ovs day)
    ∧ buildDisplayActivities acts (l1 ++ l2) ovs day
        = acts.map displayOneOff ++ l1.filterMap (tplEmit ovs day)
          ++ l2.filterMap (tplEmit ovs day)
    ∧ ∀ d ∈ buildDisplayActivities acts (l1 ++ l2) ovs day,
        d.isRecurring = true → d.id ≠ some t.id := by
  refine ⟨?_, ?_, ?_, ?_⟩
  · rw [deleteRecurringHandler, eraseIdx_middle]
  · rw [buildDisplayActivities, List.filterMap_append, List.filterMap_cons]
    cases h : tplEmit ovs day t <;> simp [h]
  · rw [buildDisplayActivities, List.filterMap_append]
    simp
  · intro d hd hrec hideq
    rcases List.mem_append.mp hd with h | h
    · rcases List.mem_map.mp h with ⟨a, _, rfl⟩
      simp [displayOneOff] at hrec
    · rcases List.mem_filterMap.mp h with ⟨u, hu, hemit⟩
      by_cases hc : u.id ≠ [] ∧ appliesOnDate u day = true
      · rw [tplEmit, if_pos hc] at hemit
        obtain rfl := Option.some.inj hemit
        have : u.id = t.id := by simpa [instDisplay] using hideq
        exact hid (this ▸ List.mem_map.mpr ⟨u, hu, rfl⟩)
      · rw [tplEmit, if_neg hc] at hemit
        exact Option.noConfusion hemit

/-- Witness for C9: deleting the only Monday/Wednesday template while a
daily template remains. -/
theorem C9_delete_template_frame_witness :
    deleteRecurringHandler
        ([⟨"d1".toList, "D".toList, [], [],
           ⟨"daily".toList, 1, none, none, none, none⟩, none, none⟩]
          ++ weeklyMonWed ⟨2024, 0, 15⟩ :: []) 1 []
      = ([⟨"d1".toList, "D".toList, [], [],
           ⟨"daily".toList, 1, none, none, none, none⟩, none, none⟩], [])
    ∧ buildDisplayActivities []
        ([⟨"d1".toList, "D".toList, [], [],
           ⟨"daily".toList, 1, none, none, none, none⟩, none, none⟩]
          ++ weeklyMonWed ⟨2024, 0, 15⟩ :: []) [] ⟨2024, 0, 15⟩
        = [].map displayOneOff
          ++ [⟨"d1".toList, "D".toList, [], [],
               ⟨"daily".toList, 1, none, none, none, none⟩, none, none⟩].filterMap
              (tplEmit [] ⟨2024, 0, 15⟩)
          ++ (tplEmit [] ⟨2024, 0, 15⟩ (weeklyMonWed ⟨2024, 0, 15⟩)).toList
          ++ [].filterMap (tplEmit [] ⟨2024, 0, 15⟩)
    ∧ buildDisplayActivities []
        ([⟨"d1".toList, "D".toList, [], [],
           ⟨"daily".toList, 1, none, none, none, none⟩, none, none⟩] ++ []) []
        ⟨2024, 0, 15⟩
        = [].map displayOneOff
          ++ [⟨"d1".toList, "D".toList, [], [],
               ⟨"daily".toList, 1, none, none, none, none⟩, none, none⟩].filterMap
              (tplEmit [] ⟨2024, 0, 15⟩)
          ++ [].filterMap (tplEmit [] ⟨2024, 0, 15⟩)
    ∧ ∀ d ∈ buildDisplayActivities []
        ([⟨"d1".toList, "D".toList, [], [],
           ⟨"daily".toList, 1, none, none, none, none⟩, none, none⟩] ++ []) []
        ⟨2024, 0, 15⟩,
        d.isRecurring = true → d.id ≠ some (weeklyMonWed ⟨2024, 0, 15⟩).id :=
  C9_delete_template_frame
    [⟨"d1".toList, "D".toList, [], [],
      ⟨"daily".toList, 1, none, none, none, none⟩, none, none⟩]
    [] (weeklyMonWed ⟨2024, 0, 15⟩) [] [] ⟨2024, 0, 15⟩ [] (by decide)

/-- The lexicographic string order is irreflexive. -/
theorem strLt_irrefl (s : Str) : strLt s s = false := by
  induction s with
  | nil => rfl
  | cons c cs ih => simp [strLt, ih]

/-- The lexicographic string order is asymmetric. -/
theorem strLt_asymm : ∀ a b : Str, strLt a b = true → strLt b a = false := by
  intro a
  induction a with
  | nil => intro b h; cases b with
    | nil => simp [strLt] at h
    | cons d ds => rfl
  | cons c cs ih =>
    intro b h
    cases b with
    | nil => simp [strLt] at h
    | cons d ds =>
      by_cases hcd : c = d
      · subst hcd
        simp [strLt, strLt_irrefl] at h ⊢
        exact ih ds h
      · simp [strLt, hcd] at h
        have : ¬ d < c := not_lt.mpr (le_of_lt h)
        simp [strLt, Ne.symm hcd, this]

/-- Two strings neither of which lexicographically precedes the other are
equal. -/
theorem strLt_conn : ∀ a b : Str, strLt a b = false → strLt b a = false → a = b := by
  intro a
  induction a with
  | nil => intro b h1 _; cases b with
    | nil => rfl
    | cons d ds => simp [strLt] at h1
  | cons c cs ih =>
    intro b h1 h2
    cases b with
    | nil => simp [strLt] at h2
    | cons d ds =>
      by_cases hcd : c = d
      · subst hcd
        simp [strLt] at h1 h2
        rw [ih ds h1 h2]
      · simp [strLt, hcd, Ne.symm hcd] at h1 h2
        exact absurd (le_antisymm h2 h1) hcd

/-- The lexicographic string order is transitive. -/
theorem strLt_trans : ∀ a b c : Str, strLt a b = true → strLt b c = true →
    strLt a c = true := by
  intro a
  induction a with
  | nil => intro b c h1 h2
           cases b with
           | nil => simp [strLt] at h1
           | cons d ds => cases c with
             | nil => simp [strLt] at h2
             | cons e es => rfl
  | cons x xs ih =>
    intro b c h1 h2
    cases b with
    | nil => simp [strLt] at h1
    | cons d ds =>
      cases c with
      | nil => simp [strLt] at h2
      | cons e es =>
        by_cases hxd : x = d <;> by_cases hde : d = e
        · subst hxd; subst hde
          simp [strLt] at h1 h2 ⊢
          exact ih ds es h1 h2
        · subst hxd
          simp [strLt, hde] at h2 ⊢
          simp [hde, h2]
        · subst hde
          simp [strLt, hxd] at h1 ⊢
          simp [hxd, h1]
        · simp [strLt, hxd] at h1
          simp [strLt, hde] at h2
          have hxe : x < e := lt_trans h1 h2
          have : x ≠ e := ne_of_lt hxe
          simp [strLt, this, hxe]

/-- The display comparator is asymmetric. -/
theorem cmpLt_asymm (x y : DisplayActivity) :
    cmpLt y x = true → cmpLt x y = false := by
  unfold cmpLt
  by_cases hy : y.time = [] <;> by_cases hx : x.time = [] <;> simp [hx, hy]
  exact strLt_asymm _ _

/-- Display activities with the same sort key never strictly precede each
other: ties are exactly equal keys. -/
theorem cmpLt_false_of_keyEq (x y : DisplayActivity)
    (h : dispKey x = dispKey y) : cmpLt y x = false := by
  unfold dispKey at h
  unfold cmpLt
  by_cases hy : y.time = [] <;> by_cases hx : x.time = [] <;>
    simp [hx, hy] at h ⊢
  rw [h, strLt_irrefl]

/-- Negated strict precedence is transitive for the display comparator. -/
theorem cmpLt_neg_trans (x y z : DisplayActivity)
    (h1 : cmpLt y x = false) (h2 : cmpLt z y = false) : cmpLt z x = false := by
  unfold cmpLt at h1 h2 ⊢
  by_cases hx : x.time = [] <;> by_cases hy : y.time = [] <;>
    by_cases hz : z.time = [] <;> simp_all
  rcases (eq_or_ne y.time x.time) with he | hne
  · rw [← he]; exact h2
  · have hxy : strLt x.time y.time = true := by
      cases hb : strLt x.time y.time
      · exact absurd (strLt_conn _ _ h1 hb) hne
      · rfl
    cases hb2 : strLt z.time x.time
    · rfl
    · have h3 := strLt_trans _ _ _ hb2 hxy
      rw [h3] at h2
      exact h2

/-- Membership after stable insertion. -/
theorem mem_insertDisp (x e : DisplayActivity) (l : List DisplayActivity)
    (h : e ∈ insertDisp x l) : e = x ∨ e ∈ l := by
  induction l with
  | nil => simpa [insertDisp] using h
  | cons y ys ih =>
    by_cases hc : cmpLt y x = true
    · simp [insertDisp, hc] at h
      rcases h with h | h
      · exact Or.inr (by simp [h])
      · rcases ih h with h2 | h2
        · exact Or.inl h2
        · exact Or.inr (by simp [h2])
    · simp [insertDisp, hc] at h
      rcases h with h | h | h
      · exact Or.inl h
      · exact Or.inr (by simp [h])
      · exact Or.inr (by simp [h])

/-- Stable insertion preserves sortedness. -/
theorem pairwise_insertDisp (x : DisplayActivity) (l : List DisplayActivity)
    (h : l.Pairwise (fun a b => cmpLt b a = false)) :
    (insertDisp x l).Pairwise (fun a b => cmpLt b a = false) := by
  induction l with
  | nil => simp [insertDisp]
  | cons y ys ih =>
    rcases List.pairwise_cons.mp h with ⟨hy, hys⟩
    by_cases hc : cmpLt y x = true
    · rw [insertDisp, if_pos hc]
      refine List.pairwise_cons.mpr ⟨?_, ih hys⟩
      intro e he
      rcases mem_insertDisp x e ys he with rfl | he2
      · exact cmpLt_asymm _ _ hc
      · exact hy e he2
    · rw [insertDisp, if_neg hc]
      refine List.pairwise_cons.mpr ⟨?_, h⟩
      intro e he
      rcases List.mem_cons.mp he with rfl | he2
      · exact Bool.not_eq_true _ ▸ hc
      · exact cmpLt_neg_trans x y e (Bool.not_eq_true _ ▸ hc) (hy e he2)

/-- Stable insertion permutes. -/
theorem insertDisp_perm (x : DisplayActivity) (l : List DisplayActivity) :
    List.Perm (insertDisp x l) (x :: l) := by
  induction l with
  | nil => simp [insertDisp]
  | cons y ys ih =>
    by_cases hc : cmpLt y x = true
    · rw [insertDisp, if_pos hc]
      exact ((ih.cons y).trans (List.Perm.swap x y ys))
    · rw [insertDisp, if_neg hc]

/-- Per-key filtering commutes with stable insertion: inserting never
reorders elements of one tie class. -/
theorem filter_insertDisp (x : DisplayActivity) (l : List DisplayActivity)
    (k : Option Str) :
    (insertDisp x l).filter (fun d => decide (dispKey d = k))
      = (x :: l).filter (fun d => decide (dispKey d = k)) := by
  induction l with
  | nil => simp [insertDisp]
  | cons y ys ih =>
    by_cases hc : cmpLt y x = true
    · rw [insertDisp, if_pos hc]
      by_cases hx : dispKey x = k <;> by_cases hy : dispKey y = k
      · exact absurd (cmpLt_false_of_keyEq x y (hx.trans hy.symm)) (by simp [hc])
      · simp only [List.filter_cons]
        simp [hx, hy, ih]
      · simp only [List.filter_cons]
        simp [hx, hy, ih]
      · simp only [List.filter_cons]
        simp [hx, hy, ih]
    · rw [insertDisp, if_neg hc]

/-- The sort is stable: each tie class (untimed activities; activities of
one given time) appears in its original order. -/
theorem sortDisplay_stable (l : List DisplayActivity) (k : Option Str) :
    (sortDisplay l).filter (fun d => decide (dispKey d = k))
      = l.filter (fun d => decide (dispKey d = k)) := by
  induction l with
  | nil => simp [sortDisplay]
  | cons x xs ih =>
    rw [sortDisplay, filter_insertDisp]
    simp only [List.filter_cons]
    by_cases hx : dispKey x = k <;> simp [hx, ih]

/-- The sorted list never has a later element strictly preceding an
earlier one. -/
theorem sortDisplay_pairwise (l : List DisplayActivity) :
    (sortDisplay l).Pairwise (fun a b => cmpLt b a = false) := by
  induction l with
  | nil => simp [sortDisplay]
  | cons x xs ih => exact pairwise_insertDisp x (sortDisplay xs) ih

/-- The sort permutes its input. -/
theorem sortDisplay_perm (l : List DisplayActivity) :
    List.Perm (sortDisplay l) l := by
  induction l with
  | nil => simp [sortDisplay]
  | cons x xs ih =>
    exact (insertDisp_perm x (sortDisplay xs)).trans (ih.cons x)

/-- C8: the rendered display list is the input up to permutation, ordered
so that no later element strictly precedes an earlier one (time ascending,
untimed after all timed), stably (every tie class keeps its original
order); and for a day holding one untimed one-off activity and one
recurring instance at 08:00, the timed recurring instance comes first and
the untimed one-off last. -/
theorem C8_sorted_stable_untimed_last (l : List DisplayActivity)
    (k : Option Str) :
    (sortDisplay l).Pairwise (fun a b => cmpLt b a = false)
    ∧ List.Perm (sortDisplay l) l
    ∧ (sortDisplay l).filter (fun d => decide (dispKey d = k))
        = l.filter (fun d => decide (dispKey d = k))
    ∧ sortDisplay
        (buildDisplayActivities [⟨"Errand".toList, [], [], false, false⟩]
          [⟨"r8".toList, "Gym".toList, "08:00".toList, [],
            ⟨"daily".toList, 1, none, none, none, none⟩, none, none⟩]
          [] ⟨2024, 0, 15⟩)
      = [⟨some ("r8".toList), "Gym".toList, "08:00".toList, [], false, true⟩,
         ⟨none, "Errand".toList, [], [], false, false⟩] :=
  ⟨sortDisplay_pairwise l, sortDisplay_perm l, sortDisplay_stable l k,
   by decide⟩

end Scheduler
namespace Scheduler

theorem jsTrimLeft_ws_cons {c : Char} (h : c.isWhitespace = true) (s : Str) :
    jsTrimLeft (c :: s) = jsTrimLeft s := by
  simp [jsTrimLeft, h]

theorem jsTrimLeft_cons_not_ws {c : Char} (h : c.isWhitespace = false) (s : Str) :
    jsTrimLeft (c :: s) = c :: s := by
  simp [jsTrimLeft, h]

theorem jsTrimLeft_idem (s : Str) : jsTrimLeft (jsTrimLeft s) = jsTrimLeft s := by
  induction s with
  | nil => rfl
  | cons c cs ih =>
    cases h : c.isWhitespace
    · rw [jsTrimLeft_cons_not_ws h, jsTrimLeft_cons_not_ws h]
    · rw [jsTrimLeft_ws_cons h, ih]

theorem jsTrimRight_cons (c : Char) (s : Str) :
    jsTrimRight (c :: s)
      = match jsTrimRight s with
        | [] => if c.isWhitespace then [] else [c]
        | r => c :: r := rfl

theorem jsTrimRight_append (s t : Str) :
    jsTrimRight (s ++ t)
      = if jsTrimRight t = [] then jsTrimRight s else s ++ jsTrimRight t := by
  induction s with
  | nil => by_cases h : jsTrimRight t = [] <;> simp [h, jsTrimRight]
  | cons c s' ih =>
    by_cases h : jsTrimRight t = []
    · simp only [h, if_true, List.cons_append] at ih ⊢
      rw [jsTrimRight_cons, ih, ← jsTrimRight_cons]
    · simp only [h, if_false, List.cons_append] at ih ⊢
      rw [jsTrimRight_cons, ih]
      have : s' ++ jsTrimRight t ≠ [] := by
        intro he
        exact h (List.append_eq_nil.mp he).2
      cases he : s' ++ jsTrimRight t with
      | nil => exact absurd he this
      | cons d ds => simp

theorem jsTrimRight_append_ws {c : Char} (h : c.isWhitespace = true) (s : Str) :
    jsTrimRight (s ++ [c]) = jsTrimRight s := by
  rw [jsTrimRight_append]
  simp [jsTrimRight, h]

theorem jsTrimRight_append_not_ws {c : Char} (h : c.isWhitespace = false) (s : Str) :
    jsTrimRight (s ++ [c]) = s ++ [c] := by
  rw [jsTrimRight_append]
  simp [jsTrimRight, h]

theorem jsTrimRight_idem (s : Str) : jsTrimRight (jsTrimRight s) = jsTrimRight s := by
  induction s with
  | nil => rfl
  | cons c cs ih =>
    rw [jsTrimRight_cons]
    cases h : jsTrimRight cs with
    | nil =>
      cases hw : c.isWhitespace <;> simp [hw, jsTrimRight]
    | cons d ds =>
      simp only
      rw [jsTrimRight_cons, ← h, ih, h]

theorem jsTrimRight_jsTrimLeft (s : Str) :
    jsTrimRight (jsTrimLeft s) = jsTrimLeft (jsTrimRight s) := by
  induction s with
  | nil => rfl
  | cons c cs ih =>
    cases hw : c.isWhitespace
    · rw [jsTrimLeft_cons_not_ws hw, jsTrimRight_cons]
      cases h : jsTrimRight cs with
      | nil => simp [hw, jsTrimLeft_cons_not_ws hw]
      | cons d ds => simp [jsTrimLeft_cons_not_ws hw]
    · rw [jsTrimLeft_ws_cons hw, jsTrimRight_cons, ih]
      cases h : jsTrimRight cs with
      | nil => simp [hw]
      | cons d ds => simp [jsTrimLeft_ws_cons hw]

theorem jsTrim_idem (s : Str) : jsTrim (jsTrim s) = jsTrim s := by
  rw [jsTrim, jsTrim, jsTrimRight_jsTrimLeft, jsTrimLeft_idem,
      jsTrimRight_idem]

theorem jsTrimRight_of_jsTrim {s : Str} (h : jsTrim s = s) :
    jsTrimRight s = s := by
  conv_lhs => rw [← h]
  rw [jsTrim, jsTrimRight_jsTrimLeft, jsTrimRight_idem, ← jsTrim, h]

theorem jsTrimLeft_of_jsTrim {s : Str} (h : jsTrim s = s) :
    jsTrimLeft s = s := by
  conv_lhs => rw [← h]
  rw [jsTrim, jsTrimLeft_idem, ← jsTrim, h]

theorem jsTrim_cons_not_ws {c : Char} (h : c.isWhitespace = false) (s : Str) :
    jsTrim (c :: s) = c :: jsTrimRight s := by
  rw [jsTrim, jsTrimRight_cons]
  cases hr : jsTrimRight s with
  | nil => simp [jsTrimLeft_cons_not_ws h, h]
  | cons d ds => simp [jsTrimLeft_cons_not_ws h]

theorem jsTrim_ws_cons {c : Char} (h : c.isWhitespace = true) (s : Str) :
    jsTrim (c :: s) = jsTrim s := by
  rw [jsTrim, jsTrimRight_cons]
  cases hr : jsTrimRight s with
  | nil => simp [h, jsTrim, hr]
  | cons d ds => simp [jsTrimLeft_ws_cons h, jsTrim, hr]

theorem jsTrim_append_ws {c : Char} (h : c.isWhitespace = true) (s : Str) :
    jsTrim (s ++ [c]) = jsTrim s := by
  rw [jsTrim, jsTrimRight_append_ws h, ← jsTrim]

end Scheduler
namespace Scheduler

theorem mem_of_mem_jsTrimLeft {x : Char} {s : Str} (h : x ∈ jsTrimLeft s) :
    x ∈ s := by
  induction s with
  | nil => simpa [jsTrimLeft] using h
  | cons c cs ih =>
    cases hw : c.isWhitespace
    · rw [jsTrimLeft_cons_not_ws hw] at h; exact h
    · rw [jsTrimLeft_ws_cons hw] at h
      exact List.mem_cons_of_mem c (ih h)

theorem mem_of_mem_jsTrimRight {x : Char} {s : Str} (h : x ∈ jsTrimRight s) :
    x ∈ s := by
  induction s with
  | nil => simpa [jsTrimRight] using h
  | cons c cs ih =>
    rw [jsTrimRight_cons] at h
    cases hr : jsTrimRight cs with
    | nil =>
      rw [hr] at h
      cases hw : c.isWhitespace <;> simp [hw] at h
      simp [h]
    | cons d ds =>
      rw [hr] at h
      simp only at h
      rcases List.mem_cons.mp h with rfl | h2
      · simp
      · exact List.mem_cons_of_mem c (ih (hr ▸ h2))

theorem mem_of_mem_jsTrim {x : Char} {s : Str} (h : x ∈ jsTrim s) : x ∈ s :=
  mem_of_mem_jsTrimRight (mem_of_mem_jsTrimLeft h)

theorem startsW_append_self (p t : Str) : startsW (p ++ t) p = true := by
  induction p with
  | nil => simp [startsW]
  | cons c ps ih => simp [startsW, ih]

theorem startsW_cons_ne {a b : Char} (h : b ≠ a) (s p : Str) :
    startsW (b :: s) (a :: p) = false := by
  simp [startsW, h]

theorem startsW_append_left {p s : Str} (h : p.length ≤ s.length) (t : Str) :
    startsW (s ++ t) p = startsW s p := by
  induction p generalizing s with
  | nil => simp [startsW]
  | cons a ps ih =>
    cases s with
    | nil => simp at h
    | cons b ss =>
      simp only [List.cons_append, startsW, List.append_eq]
      rw [ih (by simpa using h)]

theorem endsW_append_right {pat t : Str} (h : pat.length ≤ t.length) (s : Str) :
    endsW (s ++ t) pat = endsW t pat := by
  rw [endsW, endsW, List.reverse_append]
  exact startsW_append_left (by simpa using h) _

theorem endsW_append_self (s pat : Str) : endsW (s ++ pat) pat = true := by
  rw [endsW, List.reverse_append]
  exact startsW_append_self _ _

theorem splitCh_cons (c a : Char) (s : Str) :
    splitCh c (a :: s)
      = match splitCh c s with
        | [] => [[]]
        | h :: t => if a = c then [] :: h :: t else (a :: h) :: t := rfl

theorem splitCh_ne_nil (c : Char) (s : Str) : splitCh c s ≠ [] := by
  induction s with
  | nil => simp [splitCh]
  | cons a as ih =>
    rw [splitCh_cons]
    cases h : splitCh c as with
    | nil => simp
    | cons x xs => by_cases ha : a = c <;> simp [ha]

theorem splitCh_of_not_mem {c : Char} {s : Str} (h : c ∉ s) :
    splitCh c s = [s] := by
  induction s with
  | nil => rfl
  | cons a as ih =>
    have ha : a ≠ c := fun he => h (he ▸ List.mem_cons_self a as)
    have has : c ∉ as := fun hm => h (List.mem_cons_of_mem a hm)
    rw [splitCh_cons, ih has]
    simp [ha]

theorem splitCh_sep_cons (c : Char) (r : Str) :
    splitCh c (c :: r) = [] :: splitCh c r := by
  rw [splitCh_cons]
  cases h : splitCh c r with
  | nil => exact absurd h (splitCh_ne_nil c r)
  | cons x xs => simp

theorem splitCh_not_mem_append {c : Char} {p : Str} (h : c ∉ p) (r : Str) :
    splitCh c (p ++ c :: r) = p :: splitCh c r := by
  induction p with
  | nil => simpa using splitCh_sep_cons c r
  | cons a as ih =>
    have ha : a ≠ c := fun he => h (he ▸ List.mem_cons_self a as)
    have has : c ∉ as := fun hm => h (List.mem_cons_of_mem a hm)
    rw [List.cons_append, splitCh_cons, ih has]
    simp [ha]

theorem joinCh_splitCh (c : Char) (s : Str) : joinCh c (splitCh c s) = s := by
  induction s with
  | nil => rfl
  | cons a as ih =>
    rw [splitCh_cons]
    cases h : splitCh c as with
    | nil => exact absurd h (splitCh_ne_nil c as)
    | cons x xs =>
      rw [h] at ih
      by_cases ha : a = c
      · subst ha
        simp only [if_pos rfl]
        cases xs with
        | nil =>
          simp [joinCh] at ih ⊢
          exact ih
        | cons y ys =>
          simp only [joinCh, List.nil_append]
          simp only [joinCh] at ih
          rw [ih]
      · simp only [if_neg ha]
        cases xs with
        | nil => simp [joinCh] at ih ⊢; exact ih
        | cons y ys =>
          simp only [joinCh, List.cons_append]
          simp only [joinCh] at ih
          rw [ih]

theorem not_mem_of_mem_splitCh {c : Char} {p : Str} {s : Str}
    (hp : p ∈ splitCh c s) : c ∉ p := by
  induction s generalizing p with
  | nil => simp [splitCh] at hp; simp [hp]
  | cons a as ih =>
    rw [splitCh_cons] at hp
    cases h : splitCh c as with
    | nil => exact absurd h (splitCh_ne_nil c as)
    | cons x xs =>
      rw [h] at hp
      by_cases ha : a = c
      · subst ha
        simp only [if_pos rfl] at hp
        rcases List.mem_cons.mp hp with rfl | hp2
        · simp
        · exact ih (h ▸ hp2)
      · simp only [if_neg ha] at hp
        rcases List.mem_cons.mp hp with rfl | hp2
        · intro hm
          rcases List.mem_cons.mp hm with rfl | hm2
          · exact ha rfl
          · exact ih (h ▸ List.mem_cons_self x xs) hm2
        · exact ih (h ▸ List.mem_cons_of_mem x hp2)

theorem mem_of_mem_splitCh {c x : Char} {p s : Str}
    (hx : x ∈ p) (hp : p ∈ splitCh c s) : x ∈ s := by
  induction s generalizing p with
  | nil => simp [splitCh] at hp; subst hp; simp at hx
  | cons a as ih =>
    rw [splitCh_cons] at hp
    cases h : splitCh c as with
    | nil => exact absurd h (splitCh_ne_nil c as)
    | cons y ys =>
      rw [h] at hp
      by_cases ha : a = c
      · subst ha
        simp only [if_pos rfl] at hp
        rcases List.mem_cons.mp hp with rfl | hp2
        · simp at hx
        · exact List.mem_cons_of_mem _ (ih hx (h ▸ hp2))
      · simp only [if_neg ha] at hp
        rcases List.mem_cons.mp hp with rfl | hp2
        · rcases List.mem_cons.mp hx with rfl | hx2
          · simp
          · exact List.mem_cons_of_mem _ (ih hx2 (h ▸ List.mem_cons_self y ys))
        · exact List.mem_cons_of_mem _ (ih hx (h ▸ List.mem_cons_of_mem y hp2))

theorem splitCh_append_sep (c : Char) (s : Str) :
    splitCh c (s ++ [c]) = splitCh c s ++ [[]] := by
  induction s with
  | nil => simp [splitCh]
  | cons a as ih =>
    rw [List.cons_append, splitCh_cons, ih, splitCh_cons]
    cases h : splitCh c as with
    | nil => exact absurd h (splitCh_ne_nil c as)
    | cons x xs => by_cases ha : a = c <;> simp [ha]

theorem splitCh_append_not_sep {c a : Char} (h : a ≠ c) (s : Str) :
    splitCh c (s ++ [a]) = appendLast (splitCh c s) a := by
  induction s with
  | nil => simp [splitCh, appendLast, h]
  | cons b bs ih =>
    rw [List.cons_append, splitCh_cons, ih, splitCh_cons]
    cases hb : splitCh c bs with
    | nil => exact absurd hb (splitCh_ne_nil c bs)
    | cons x xs =>
      by_cases hbc : b = c
      · subst hbc
        simp only [if_pos rfl]
        cases xs <;> simp [appendLast]
      · simp only [if_neg hbc]
        cases xs <;> simp [appendLast]

end Scheduler
namespace Scheduler

theorem normalizeLines_cons (l : Str) (ls : List Str) :
    normalizeLines (l :: ls)
      = if jsTrim l = [] then normalizeLines ls
        else jsTrim l :: normalizeLines ls := by
  by_cases h : jsTrim l = [] <;> simp [normalizeLines, h]

theorem stepLine_trim (st : PState) (l : Str) :
    stepLine st (jsTrim l) = stepLine st l := by
  simp only [stepLine, jsTrim_idem]

theorem stepLine_blank {l : Str} (h : jsTrim l = []) (st : PState) :
    stepLine st l = some st := by
  simp [stepLine, h]

theorem parseLinesAux_normalize (st : PState) (ls : List Str) :
    parseLinesAux st ls = parseLinesAux st (normalizeLines ls) := by
  induction ls generalizing st with
  | nil => rfl
  | cons l ls ih =>
    rw [normalizeLines_cons]
    by_cases h : jsTrim l = []
    · rw [if_pos h, parseLinesAux, stepLine_blank h]
      exact ih st
    · rw [if_neg h, parseLinesAux, parseLinesAux, stepLine_trim]
      cases hs : stepLine st l with
      | none => rfl
      | some st2 => exact ih st2

theorem normalizeLines_append_blank (ls : List Str) :
    normalizeLines (ls ++ [[]]) = normalizeLines ls := by
  simp [normalizeLines, jsTrim, jsTrimRight, jsTrimLeft]

theorem normalizeLines_appendLast_ws {c : Char} (h : c.isWhitespace = true) :
    ∀ ls : List Str, normalizeLines (appendLast ls c) = normalizeLines ls := by
  intro ls
  induction ls with
  | nil =>
    have : jsTrim [c] = [] := by rw [jsTrim_ws_cons h]; rfl
    simp [appendLast, normalizeLines, this]
  | cons hd tl ih =>
    cases tl with
    | nil =>
      simp only [appendLast]
      rw [normalizeLines_cons, normalizeLines_cons, jsTrim_append_ws h]
    | cons x xs =>
      have ha : appendLast (hd :: x :: xs) c = hd :: appendLast (x :: xs) c := rfl
      rw [ha, normalizeLines_cons, normalizeLines_cons, ih]

theorem norm_split_trimLeft (u : Str) :
    normalizeLines (splitCh '\n' (jsTrimLeft u))
      = normalizeLines (splitCh '\n' u) := by
  induction u with
  | nil => rfl
  | cons c cs ih =>
    cases hw : c.isWhitespace
    · rw [jsTrimLeft_cons_not_ws hw]
    · rw [jsTrimLeft_ws_cons hw, ih]
      by_cases hc : c = '\n'
      · subst hc
        rw [splitCh_sep_cons, normalizeLines_cons]
        have : jsTrim ([] : Str) = [] := rfl
        rw [if_pos this]
      · rw [splitCh_cons]
        cases hsp : splitCh '\n' cs with
        | nil => exact absurd hsp (splitCh_ne_nil _ _)
        | cons hh tt =>
          simp only [if_neg hc]
          rw [normalizeLines_cons, normalizeLines_cons, jsTrim_ws_cons hw]

theorem norm_split_append_ws (t : Str) (h : ∀ x ∈ t, x.isWhitespace = true) :
    ∀ u : Str, normalizeLines (splitCh '\n' (u ++ t))
      = normalizeLines (splitCh '\n' u) := by
  induction t with
  | nil => intro u; simp
  | cons c t2 ih =>
    intro u
    have hc := h c (List.mem_cons_self c t2)
    have h2 : ∀ x ∈ t2, x.isWhitespace = true :=
      fun x hx => h x (List.mem_cons_of_mem c hx)
    have hrw : u ++ c :: t2 = (u ++ [c]) ++ t2 := by simp
    rw [hrw, ih h2 (u ++ [c])]
    by_cases hnl : c = '\n'
    · subst hnl
      rw [splitCh_append_sep, normalizeLines_append_blank]
    · rw [splitCh_append_not_sep hnl, normalizeLines_appendLast_ws hc]

theorem exists_ws_suffix (s : Str) :
    ∃ t, s = jsTrimRight s ++ t ∧ ∀ x ∈ t, x.isWhitespace = true := by
  induction s with
  | nil => exact ⟨[], rfl, by simp⟩
  | cons c cs ih =>
    obtain ⟨t, ht, hw⟩ := ih
    rw [jsTrimRight_cons]
    cases hr : jsTrimRight cs with
    | nil =>
      rw [hr, List.nil_append] at ht
      cases hw2 : c.isWhitespace
      · refine ⟨cs, by simp [hw2], fun x hx => hw x (ht ▸ hx)⟩
      · refine ⟨c :: cs, by simp [hw2], fun x hx => ?_⟩
        rcases List.mem_cons.mp hx with rfl | h2
        · exact hw2
        · exact hw x (ht ▸ h2)
    | cons d ds =>
      rw [hr] at ht
      refine ⟨t, ?_, hw⟩
      simp only
      rw [List.cons_append, ← ht]

theorem norm_split_trim (s : Str) :
    normalizeLines (splitCh '\n' (jsTrim s))
      = normalizeLines (splitCh '\n' s) := by
  rw [jsTrim, norm_split_trimLeft]
  obtain ⟨t, ht, hw⟩ := exists_ws_suffix s
  conv_rhs => rw [ht]
  rw [norm_split_append_ws t hw]

theorem parseLinesFn_norm (ls : List Str) :
    parseLinesFn ls = parseLinesFn (normalizeLines ls) := by
  rw [parseLinesFn, parseLinesFn, parseLinesAux_normalize]

theorem parse_trim_nl (s : Str) :
    parseActivitiesPure (jsTrim s ++ ['\n']) = parseActivitiesPure s := by
  rw [parseActivitiesPure, parseActivitiesPure, parseLinesFn_norm,
      splitCh_append_sep, normalizeLines_append_blank, norm_split_trim,
      ← parseLinesFn_norm]

end Scheduler
namespace Scheduler

theorem jsTrimLeft_length_le (s : Str) : (jsTrimLeft s).length ≤ s.length := by
  induction s with
  | nil => simp [jsTrimLeft]
  | cons c cs ih =>
    cases hw : c.isWhitespace
    · rw [jsTrimLeft_cons_not_ws hw]
    · rw [jsTrimLeft_ws_cons hw]
      exact le_trans ih (by simp)

theorem not_ws_head_of_trimLeft {c : Char} {s : Str}
    (h : jsTrimLeft (c :: s) = c :: s) : c.isWhitespace = false := by
  cases hw : c.isWhitespace
  · rfl
  · rw [jsTrimLeft_ws_cons hw] at h
    have := jsTrimLeft_length_le s
    rw [h] at this
    simp at this

theorem jsTrimLeft_append_of_head {c : Char} (hw : c.isWhitespace = false)
    (s t : Str) : jsTrimLeft ((c :: s) ++ t) = (c :: s) ++ t := by
  rw [List.cons_append, jsTrimLeft_cons_not_ws hw]

theorem jsTrim_append_parts {s t : Str} (hs : jsTrim s = s) (hsne : s ≠ [])
    (ht : jsTrimRight t = t) (htne : t ≠ []) : jsTrim (s ++ t) = s ++ t := by
  rw [jsTrim, jsTrimRight_append, ht, if_neg htne]
  cases s with
  | nil => exact absurd rfl hsne
  | cons c s2 =>
    exact jsTrimLeft_append_of_head
      (not_ws_head_of_trimLeft (jsTrimLeft_of_jsTrim hs)) s2 t

theorem stripDoneTag_spec (w : Str) :
    stripDoneTag (w ++ (' ' :: '[' :: 'x' :: ']' :: [])) = jsTrimRight w := by
  rw [stripDoneTag]
  have htake : w ++ (' ' :: '[' :: 'x' :: ']' :: [])
      = (w ++ [' ']) ++ ('[' :: 'x' :: ']' :: []) := by simp
  rw [htake]
  have hlen : ((w ++ [' ']) ++ ('[' :: 'x' :: ']' :: [])).length - 3
      = (w ++ [' ']).length := by simp
  rw [hlen, List.take_left]
  exact jsTrimRight_append_ws (by decide) w

theorem endsW_mark_append (s : Str) :
    endsW (s ++ (' ' :: '[' :: 'x' :: ']' :: [])) ("[x]".toList) = true := by
  have : s ++ (' ' :: '[' :: 'x' :: ']' :: [])
      = (s ++ [' ']) ++ ("[x]".toList) := by simp
  rw [this]
  exact endsW_append_self _ _

theorem not_endsW_sep {title : Str} (h : endsW title ("[x]".toList) = false) :
    endsW ((' ' :: '|' :: ' ' :: title)) ("[x]".toList) = false := by
  match title with
  | [] => rfl
  | [a] =>
    show startsW (List.reverse _) _ = false
    simp only [List.reverse_cons, List.reverse_nil, List.nil_append,
      List.cons_append, List.append_nil]
    show (decide (a = ']') && (decide ((' ' : Char) = 'x') && _)) = false
    rw [show (decide ((' ' : Char) = 'x')) = false from rfl]
    simp
  | [a, b] =>
    show startsW (List.reverse _) _ = false
    simp only [List.reverse_cons, List.reverse_nil, List.nil_append,
      List.cons_append, List.append_nil]
    show (decide (b = ']') && (decide (a = 'x') && (decide ((' ' : Char) = '[') && _))) = false
    rw [show (decide ((' ' : Char) = '[')) = false from rfl]
    simp
  | a :: b :: c :: rest =>
    have hlen : ("[x]".toList).length ≤ (a :: b :: c :: rest).length := by simp
    have he : (' ' :: '|' :: ' ' :: (a :: b :: c :: rest))
        = [' ', '|', ' '] ++ (a :: b :: c :: rest) := by simp
    rw [he, endsW_append_right hlen]
    exact h

theorem findOv_eq_none_iff (m : Overrides) (r : Str) :
    findOv m r = none ↔ r ∉ m.map Prod.fst := by
  induction m with
  | nil => simp [findOv]
  | cons e rest ih =>
    obtain ⟨k, v⟩ := e
    by_cases hk : k = r
    · subst hk
      simp [findOv]
    · simp [findOv, hk, ih, Ne.symm hk]

theorem setOv_append_fresh {m : Overrides} {r : Str} (h : findOv m r = none)
    (v : Override) : setOv m r v = m ++ [(r, v)] := by
  induction m with
  | nil => rfl
  | cons e rest ih =>
    obtain ⟨k, w⟩ := e
    rw [setOv]
    by_cases hk : k = r
    · subst hk; simp [findOv] at h
    · rw [if_neg hk]
      rw [findOv, if_neg hk] at h
      rw [ih h]
      simp

theorem findOv_append_fresh {m : Overrides} {r : Str} (h : findOv m r = none)
    (v : Override) : findOv (m ++ [(r, v)]) r = some v := by
  induction m with
  | nil => simp [findOv]
  | cons e rest ih =>
    obtain ⟨k, w⟩ := e
    have hk : ¬ k = r := by
      intro hke; subst hke; rw [findOv, if_pos rfl] at h; exact Option.noConfusion h
    rw [findOv, if_neg hk] at h
    rw [List.cons_append, findOv, if_neg hk]
    exact ih h

theorem updOv_append_fresh {m : Overrides} {r : Str} (h : findOv m r = none)
    (v : Override) (f : Override → Override) :
    updOv (m ++ [(r, v)]) r f = m ++ [(r, f v)] := by
  induction m with
  | nil => simp [updOv]
  | cons e rest ih =>
    obtain ⟨k, w⟩ := e
    have hk : ¬ k = r := by
      intro hk; subst hk; rw [findOv, if_pos rfl] at h; exact Option.noConfusion h
    rw [findOv, if_neg hk] at h
    rw [List.cons_append, updOv, if_neg hk, ih h]
    simp

theorem updOv_updOv (m : Overrides) (r : Str) (f g : Override → Override) :
    updOv (updOv m r f) r g = updOv m r (fun ov => g (f ov)) := by
  induction m with
  | nil => rfl
  | cons e rest ih =>
    obtain ⟨k, w⟩ := e
    by_cases hk : k = r <;> rw [updOv, updOv] <;> simp [hk, ih, updOv]

theorem updOv_congr {f g : Override → Override} (h : ∀ ov, f ov = g ov)
    (m : Overrides) (r : Str) : updOv m r f = updOv m r g := by
  induction m with
  | nil => rfl
  | cons e rest ih =>
    obtain ⟨k, w⟩ := e
    by_cases hk : k = r <;> rw [updOv, updOv] <;> simp [hk, ih, h]

theorem findOv_updOv (m : Overrides) (r : Str) (f : Override → Override) :
    findOv (updOv m r f) r = (findOv m r).map f := by
  induction m with
  | nil => simp [updOv, findOv]
  | cons e rest ih =>
    obtain ⟨k, w⟩ := e
    by_cases hk : k = r
    · subst hk
      rw [updOv, if_pos rfl, findOv, if_pos rfl, findOv, if_pos rfl]
      rfl
    · rw [updOv, if_neg hk, findOv, if_neg hk, findOv, if_neg hk, ih]

theorem setState_fresh {m : List (Str × Bool)} {k : Str}
    (h : k ∉ m.map Prod.fst) (b : Bool) : setState m k b = m ++ [(k, b)] := by
  induction m with
  | nil => rfl
  | cons e rest ih =>
    obtain ⟨k0, b0⟩ := e
    simp only [List.map_cons, List.mem_cons] at h
    push_neg at h
    rw [setState, if_neg (Ne.symm h.1), ih h.2]
    simp

theorem foldl_setState {kvs : List (Str × Bool)} :
    ∀ acc : List (Str × Bool),
    (∀ kv ∈ kvs, kv.1 ∉ acc.map Prod.fst) →
    (kvs.map Prod.fst).Nodup →
    kvs.foldl (fun m kv => setState m kv.1 kv.2) acc = acc ++ kvs := by
  induction kvs with
  | nil => intro acc _ _; simp
  | cons kv rest ih =>
    intro acc hdisj hnodup
    simp only [List.foldl_cons]
    rw [setState_fresh (hdisj kv (List.mem_cons_self kv rest)) kv.2]
    simp only [List.map_cons, List.nodup_cons] at hnodup
    rw [ih (acc ++ [kv]) ?_ hnodup.2]
    · simp
    · intro kv2 hkv2
      simp only [List.map_append, List.mem_append, List.map_cons]
      push_neg
      refine ⟨hdisj kv2 (List.mem_cons_of_mem kv hkv2), ?_⟩
      simp only [List.map_nil, List.mem_singleton]
      intro he
      exact hnodup.1 (he ▸ List.mem_map_of_mem Prod.fst hkv2)

theorem flushCur_of_none {st : PState} (h : st.current = none) :
    flushCur st = st := by
  rw [flushCur, h]

end Scheduler
namespace Scheduler

/-- String-building helpers reparse correctly, part 1: the trim of a
header-shaped line whose tail is right-trim-stable and nonempty. -/
theorem jsTrim_eq_self_parts {X : Str} (hL : jsTrimLeft X = X)
    (hR : jsTrimRight X = X) : jsTrim X = X := by
  rw [jsTrim, hR, hL]

/-- Trimming a line that starts with a non-whitespace character and whose
remainder is right-trim-stable and nonempty is the identity. -/
theorem jsTrim_header {c : Char} (hc : c.isWhitespace = false) (lit X : Str)
    (hX : jsTrimRight X = X) (hXne : X ≠ []) :
    jsTrim ((c :: lit) ++ X) = (c :: lit) ++ X := by
  rw [jsTrim, jsTrimRight_append, hX, if_neg hXne, jsTrimLeft_append_of_head hc]

/-- A string ending in `space, bar` never ends in the done marker. -/
theorem not_endsW_bar (s : Str) :
    endsW (s ++ [' ', '|']) ("[x]".toList) = false := by
  rw [endsW, List.reverse_append]
  rw [show ([' ', '|'] : Str).reverse = '|' :: [' '] from rfl]
  rw [show ("[x]".toList).reverse = ']' :: 'x' :: '[' :: [] from rfl]
  exact startsW_cons_ne (by decide) _ _

/-- A string ending in a closing bracket is right-trim-stable. -/
theorem jsTrimRight_endbracket (s : Str) :
    jsTrimRight (s ++ [']']) = s ++ [']'] :=
  jsTrimRight_append_not_ws (by decide) s

/-- The serialized `Activity:` header line of a well-formed activity trims
to a nonempty line that the parser recognizes and parses back to exactly
the activity's title, time and done flag. -/
theorem actHeader_reparse (a : Activity) (w : ActWf a) :
    jsTrim (actHeaderLine a) ≠ []
    ∧ startsW (jsTrim (actHeaderLine a)) ("Activity:".toList) = true
    ∧ parseActHeader (jsTrim (actHeaderLine a))
        = ⟨a.title, a.time, [], a.done, false⟩ := by
  have hTR : jsTrimRight a.title = a.title := jsTrimRight_of_jsTrim w.ttrim
  have hTL : jsTrimLeft a.title = a.title := jsTrimLeft_of_jsTrim w.ttrim
  have hML : jsTrimLeft a.time = a.time := jsTrimLeft_of_jsTrim w.timetrim
  by_cases hm : a.time = []
  · by_cases ht : a.title = []
    · cases hd : a.done
      · have hline : actHeaderLine a = "Activity: ".toList := by
          rw [actHeaderLine]; simp [hm, ht, hd]
        rw [hline]
        rw [show jsTrim ("Activity: ".toList) = "Activity:".toList by decide]
        refine ⟨by decide, by decide, ?_⟩
        rw [show parseActHeader ("Activity:".toList)
            = ⟨[], [], [], false, false⟩ by decide]
        simp [hm, ht, hd]
      · have hline : actHeaderLine a = "Activity: ".toList ++ " [x]".toList := by
          rw [actHeaderLine]; simp [hm, ht, hd]
        rw [hline]
        rw [show jsTrim ("Activity: ".toList ++ " [x]".toList)
            = "Activity:".toList ++ "  [x]".toList by decide]
        refine ⟨by decide, by decide, ?_⟩
        rw [show parseActHeader ("Activity:".toList ++ "  [x]".toList)
            = ⟨[], [], [], true, false⟩ by decide]
        simp [hm, ht, hd]
    · obtain ⟨tc, trest, htc⟩ : ∃ c r, a.title = c :: r := by
        cases hx : a.title with
        | nil => exact absurd hx ht
        | cons c r => exact ⟨c, r, rfl⟩
      have hcnws : tc.isWhitespace = false := by
        rw [htc] at hTL
        exact not_ws_head_of_trimLeft hTL
      cases hd : a.done
      · have hline : actHeaderLine a = ('A' :: "ctivity: ".toList) ++ a.title := by
          rw [actHeaderLine]
          simp [hm, hd]
        have htl : jsTrim (actHeaderLine a)
            = "Activity:".toList ++ (' ' :: a.title) := by
          rw [hline, jsTrim_header (by decide) _ _ hTR ht]
          simp
        rw [htl]
        refine ⟨by simp, startsW_append_self _ _, ?_⟩
        rw [parseActHeader]
        rw [show (9 : Nat) = ("Activity:".toList).length from rfl, List.drop_left]
        rw [jsTrim_ws_cons (by decide), w.ttrim]
        rw [w.tnodone hd]
        simp only [Bool.false_eq_true, if_false]
        rw [splitCh_of_not_mem (w.tbar hm)]
        simp [hm, hd]
      · set X := a.title ++ (' ' :: '[' :: 'x' :: ']' :: []) with hX
        have hXR : jsTrimRight X = X := by
          rw [hX, show a.title ++ (' ' :: '[' :: 'x' :: ']' :: [])
              = (a.title ++ [' ', '[', 'x']) ++ [']'] by simp]
          exact jsTrimRight_endbracket _
        have hXne : X ≠ [] := by rw [hX]; simp
        have hline : actHeaderLine a = ('A' :: "ctivity: ".toList) ++ X := by
          rw [actHeaderLine, hX]
          simp [hm, hd]
        have htl : jsTrim (actHeaderLine a) = "Activity:".toList ++ (' ' :: X) := by
          rw [hline, jsTrim_header (by decide) _ _ hXR hXne]
          simp
        rw [htl]
        refine ⟨by simp, startsW_append_self _ _, ?_⟩
        rw [parseActHeader]
        rw [show (9 : Nat) = ("Activity:".toList).length from rfl, List.drop_left]
        rw [jsTrim_ws_cons (by decide)]
        have hpay : jsTrim X = X := by
          rw [hX, htc]
          exact jsTrim_header hcnws _ _ (by decide) (by decide)
        rw [hpay]
        have hend : endsW X ("[x]".toList) = true := by
          rw [hX]; exact endsW_mark_append _
        rw [hend]
        simp only [if_true]
        have hstrip : stripDoneTag X = a.title := by
          rw [hX, stripDoneTag_spec, hTR]
        rw [hstrip]
        rw [splitCh_of_not_mem (w.tbar hm)]
        simp [hm, hd]
  · obtain ⟨mc, mrest, hmc⟩ : ∃ c r, a.time = c :: r := by
      cases hx : a.time with
      | nil => exact absurd hx hm
      | cons c r => exact ⟨c, r, rfl⟩
    have hcnws : mc.isWhitespace = false := by
      rw [hmc] at hML
      exact not_ws_head_of_trimLeft hML
    have hbar2 : '|' ∉ a.time ++ [' '] := by
      intro hmem
      rcases List.mem_append.mp hmem with h2 | h2
      · exact w.timebar h2
      · simp at h2
    by_cases ht : a.title = []
    · cases hd : a.done
      · have hline : actHeaderLine a
            = (('A' :: "ctivity: ".toList) ++ (a.time ++ [' ', '|'])) ++ [' '] := by
          rw [actHeaderLine]
          simp [hm, ht, hd]
        have hXR : jsTrimRight (a.time ++ [' ', '|']) = a.time ++ [' ', '|'] := by
          rw [show a.time ++ [' ', '|'] = (a.time ++ [' ']) ++ ['|'] by simp]
          exact jsTrimRight_append_not_ws (by decide) _
        have hXne : a.time ++ [' ', '|'] ≠ [] := by cases a.time <;> simp
        have htl : jsTrim (actHeaderLine a)
            = "Activity:".toList ++ (' ' :: (a.time ++ [' ', '|'])) := by
          rw [hline, jsTrim_append_ws (by decide)]
          rw [jsTrim_header (by decide) _ _ hXR hXne]
          simp
        rw [htl]
        refine ⟨by simp, startsW_append_self _ _, ?_⟩
        rw [parseActHeader]
        rw [show (9 : Nat) = ("Activity:".toList).length from rfl, List.drop_left]
        rw [jsTrim_ws_cons (by decide)]
        have hpay : jsTrim (a.time ++ [' ', '|']) = a.time ++ [' ', '|'] := by
          rw [hmc]
          exact jsTrim_header hcnws _ _ (by decide) (by decide)
        rw [hpay]
        rw [not_endsW_bar]
        simp only [Bool.false_eq_true, if_false]
        have hsplit : splitCh '|' (a.time ++ [' ', '|'])
            = (a.time ++ [' ']) :: [[]] := by
          rw [show a.time ++ [' ', '|'] = (a.time ++ [' ']) ++ '|' :: [] by simp]
          rw [splitCh_not_mem_append hbar2]
          rfl
        rw [hsplit]
        have hlen : 1 < ((a.time ++ [' ']) :: [[]] : List Str).length := by simp
        rw [if_pos hlen, if_pos hlen]
        simp only [List.headD_cons, List.tail_cons]
        rw [jsTrim_append_ws (by decide), w.timetrim]
        rw [show joinCh '|' [[]] = [] from rfl,
            show jsTrim ([] : Str) = [] from rfl]
        simp [ht, hd]
      · set X := a.time ++ (' ' :: '|' :: ' ' :: ' ' :: '[' :: 'x' :: ']' :: []) with hX
        have hXR : jsTrimRight X = X := by
          rw [hX, show a.time ++ (' ' :: '|' :: ' ' :: ' ' :: '[' :: 'x' :: ']' :: [])
              = (a.time ++ [' ', '|', ' ', ' ', '[', 'x']) ++ [']'] by simp]
          exact jsTrimRight_endbracket _
        have hXne : X ≠ [] := by rw [hX]; cases a.time <;> simp
        have hline : actHeaderLine a = ('A' :: "ctivity: ".toList) ++ X := by
          rw [actHeaderLine, hX]
          simp [hm, ht, hd]
        have htl : jsTrim (actHeaderLine a) = "Activity:".toList ++ (' ' :: X) := by
          rw [hline, jsTrim_header (by decide) _ _ hXR hXne]
          simp
        rw [htl]
        refine ⟨by simp, startsW_append_self _ _, ?_⟩
        rw [parseActHeader]
        rw [show (9 : Nat) = ("Activity:".toList).length from rfl, List.drop_left]
        rw [jsTrim_ws_cons (by decide)]
        have hpay : jsTrim X = X := by
          rw [hX, hmc]
          refine jsTrim_header hcnws _ _ ?_ (by simp)
          rw [show (' ' :: '|' :: ' ' :: ' ' :: '[' :: 'x' :: ']' :: [] : Str)
              = ([' ', '|', ' ', ' ', '[', 'x'] : Str) ++ [']'] by simp]
          exact jsTrimRight_endbracket _
        rw [hpay]
        have hend : endsW X ("[x]".toList) = true := by
          rw [hX, show a.time ++ (' ' :: '|' :: ' ' :: ' ' :: '[' :: 'x' :: ']' :: [])
              = (a.time ++ [' ', '|', ' ']) ++ (' ' :: '[' :: 'x' :: ']' :: []) by simp]
          exact endsW_mark_append _
        rw [hend]
        simp only [if_true]
        have hstrip : stripDoneTag X = a.time ++ [' ', '|'] := by
          rw [hX, show a.time ++ (' ' :: '|' :: ' ' :: ' ' :: '[' :: 'x' :: ']' :: [])
              = (a.time ++ [' ', '|', ' ']) ++ (' ' :: '[' :: 'x' :: ']' :: []) by simp]
          rw [stripDoneTag_spec]
          rw [show a.time ++ [' ', '|', ' '] = (a.time ++ [' ', '|']) ++ [' '] by simp]
          rw [jsTrimRight_append_ws (by decide)]
          rw [show a.time ++ [' ', '|'] = (a.time ++ [' ']) ++ ['|'] by simp]
          rw [jsTrimRight_append_not_ws (by decide)]
        rw [hstrip]
        have hsplit : splitCh '|' (a.time ++ [' ', '|'])
            = (a.time ++ [' ']) :: [[]] := by
          rw [show a.time ++ [' ', '|'] = (a.time ++ [' ']) ++ '|' :: [] by simp]
          rw [splitCh_not_mem_append hbar2]
          rfl
        rw [hsplit]
        have hlen : 1 < ((a.time ++ [' ']) :: [[]] : List Str).length := by simp
        rw [if_pos hlen, if_pos hlen]
        simp only [List.headD_cons, List.tail_cons]
        rw [jsTrim_append_ws (by decide), w.timetrim]
        rw [show joinCh '|' [[]] = [] from rfl,
            show jsTrim ([] : Str) = [] from rfl]
        simp [ht, hd]
    · cases hd : a.done
      · set X := a.time ++ (' ' :: '|' :: ' ' :: a.title) with hX
        have hXR : jsTrimRight X = X := by
          rw [hX, show a.time ++ (' ' :: '|' :: ' ' :: a.title)
              = (a.time ++ [' ', '|', ' ']) ++ a.title by simp]
          rw [jsTrimRight_append, hTR, if_neg ht]
        have hXne : X ≠ [] := by
          rw [hX]; cases a.time <;> simp
        have hline : actHeaderLine a = ('A' :: "ctivity: ".toList) ++ X := by
          rw [actHeaderLine, hX]
          simp [hm, hd]
        have htl : jsTrim (actHeaderLine a) = "Activity:".toList ++ (' ' :: X) := by
          rw [hline, jsTrim_header (by decide) _ _ hXR hXne]
          simp
        rw [htl]
        refine ⟨by simp, startsW_append_self _ _, ?_⟩
        rw [parseActHeader]
        rw [show (9 : Nat) = ("Activity:".toList).length from rfl, List.drop_left]
        rw [jsTrim_ws_cons (by decide)]
        have hpay : jsTrim X = X := by
          rw [hX, hmc]
          refine jsTrim_header hcnws _ _ ?_ (by simp)
          rw [show (' ' :: '|' :: ' ' :: a.title : Str) = [' ', '|', ' '] ++ a.title by simp]
          rw [jsTrimRight_append, hTR, if_neg ht]
        rw [hpay]
        have hend : endsW X ("[x]".toList) = false := by
          rw [hX]
          have hlen : ("[x]".toList).length ≤ (' ' :: '|' :: ' ' :: a.title).length := by simp
          rw [endsW_append_right hlen]
          exact not_endsW_sep (w.tnodone hd)
        rw [hend]
        simp only [Bool.false_eq_true, if_false]
        have hsplit : splitCh '|' X = (a.time ++ [' ']) :: splitCh '|' (' ' :: a.title) := by
          rw [hX, show a.time ++ (' ' :: '|' :: ' ' :: a.title)
              = (a.time ++ [' ']) ++ '|' :: (' ' :: a.title) by simp]
          exact splitCh_not_mem_append hbar2 _
        rw [hsplit]
        cases hsp : splitCh '|' (' ' :: a.title) with
        | nil => exact absurd hsp (splitCh_ne_nil _ _)
        | cons p ps =>
          have hlen : 1 < ((a.time ++ [' ']) :: p :: ps).length := by simp
          rw [if_pos hlen, if_pos hlen]
          have hjoin : joinCh '|' (p :: ps) = ' ' :: a.title := by
            rw [← hsp, joinCh_splitCh]
          simp only [List.headD_cons, List.tail_cons]
          rw [hjoin, jsTrim_append_ws (by decide), w.timetrim,
              jsTrim_ws_cons (by decide), w.ttrim]
      · set X := a.time ++ (' ' :: '|' :: ' ' :: (a.title ++ (' ' :: '[' :: 'x' :: ']' :: []))) with hX
        have hXR : jsTrimRight X = X := by
          rw [hX, show a.time ++ (' ' :: '|' :: ' ' :: (a.title ++ (' ' :: '[' :: 'x' :: ']' :: [])))
              = (a.time ++ [' ', '|', ' '] ++ a.title ++ [' ', '[', 'x']) ++ [']'] by simp]
          exact jsTrimRight_endbracket _
        have hXne : X ≠ [] := by
          rw [hX]
          cases a.time <;> simp
        have hline : actHeaderLine a = ('A' :: "ctivity: ".toList) ++ X := by
          rw [actHeaderLine, hX]
          simp [hm, hd]
        have htl : jsTrim (actHeaderLine a) = "Activity:".toList ++ (' ' :: X) := by
          rw [hline, jsTrim_header (by decide) _ _ hXR hXne]
          simp
        rw [htl]
        refine ⟨by simp, startsW_append_self _ _, ?_⟩
        rw [parseActHeader]
        rw [show (9 : Nat) = ("Activity:".toList).length from rfl, List.drop_left]
        rw [jsTrim_ws_cons (by decide)]
        have hpay : jsTrim X = X := by
          rw [hX, hmc]
          refine jsTrim_header hcnws _ _ ?_ (by simp)
          rw [show (' ' :: '|' :: ' ' :: (a.title ++ (' ' :: '[' :: 'x' :: ']' :: [])))
              = ((' ' :: '|' :: ' ' :: a.title) ++ [' ', '[', 'x']) ++ [']'] by simp]
          exact jsTrimRight_endbracket _
        rw [hpay]
        have hend : endsW X ("[x]".toList) = true := by
          rw [hX, show a.time ++ (' ' :: '|' :: ' ' :: (a.title ++ (' ' :: '[' :: 'x' :: ']' :: [])))
              = (a.time ++ (' ' :: '|' :: ' ' :: a.title)) ++ (' ' :: '[' :: 'x' :: ']' :: []) by simp]
          exact endsW_mark_append _
        rw [hend]
        simp only [if_true]
        have hstrip : stripDoneTag X = a.time ++ (' ' :: '|' :: ' ' :: a.title) := by
          rw [hX, show a.time ++ (' ' :: '|' :: ' ' :: (a.title ++ (' ' :: '[' :: 'x' :: ']' :: [])))
              = (a.time ++ (' ' :: '|' :: ' ' :: a.title)) ++ (' ' :: '[' :: 'x' :: ']' :: []) by simp]
          rw [stripDoneTag_spec]
          rw [show a.time ++ (' ' :: '|' :: ' ' :: a.title) = (a.time ++ [' ', '|', ' ']) ++ a.title by simp]
          rw [jsTrimRight_append, hTR, if_neg ht]
        rw [hstrip]
        have hsplit : splitCh '|' (a.time ++ (' ' :: '|' :: ' ' :: a.title))
            = (a.time ++ [' ']) :: splitCh '|' (' ' :: a.title) := by
          rw [show a.time ++ (' ' :: '|' :: ' ' :: a.title)
              = (a.time ++ [' ']) ++ '|' :: (' ' :: a.title) by simp]
          exact splitCh_not_mem_append hbar2 _
        rw [hsplit]
        cases hsp : splitCh '|' (' ' :: a.title) with
        | nil => exact absurd hsp (splitCh_ne_nil _ _)
        | cons p ps =>
          have hlen : 1 < ((a.time ++ [' ']) :: p :: ps).length := by simp
          rw [if_pos hlen, if_pos hlen]
          have hjoin : joinCh '|' (p :: ps) = ' ' :: a.title := by
            rw [← hsp, joinCh_splitCh]
          simp only [List.headD_cons, List.tail_cons]
          rw [hjoin, jsTrim_append_ws (by decide), w.timetrim,
              jsTrim_ws_cons (by decide), w.ttrim]

end Scheduler

namespace Scheduler

theorem itemLine_trim_t (i : Item) (w : WfItemText i) (hd : i.done = true)
    (ht : i.text ≠ []) :
    jsTrim (itemLine i) = '-' :: ' ' :: '[' :: 'x' :: ']' :: ' ' :: i.text := by
  have hstep : jsTrimRight (' ' :: i.text) = ' ' :: i.text := by
    rw [show (' ' :: i.text) = [' '] ++ i.text by simp]
    rw [jsTrimRight_append, w.1, if_neg ht]
  have hline : itemLine i
      = ('-' :: (' ' :: '[' :: 'x' :: ']' :: [])) ++ (' ' :: i.text) := by
    rw [itemLine, hd]; simp
  rw [hline, jsTrim_header (by decide) _ _ hstep (by simp)]
  simp

theorem itemLine_trim_f (i : Item) (w : WfItemText i) (hd : i.done = false)
    (ht : i.text ≠ []) :
    jsTrim (itemLine i) = '-' :: ' ' :: '[' :: ' ' :: ']' :: ' ' :: i.text := by
  have hstep : jsTrimRight (' ' :: i.text) = ' ' :: i.text := by
    rw [show (' ' :: i.text) = [' '] ++ i.text by simp]
    rw [jsTrimRight_append, w.1, if_neg ht]
  have hline : itemLine i
      = ('-' :: (' ' :: '[' :: ' ' :: ']' :: [])) ++ (' ' :: i.text) := by
    rw [itemLine, hd]; simp
  rw [hline, jsTrim_header (by decide) _ _ hstep (by simp)]
  simp

theorem itemTl_facts (i : Item) (w : WfItemText i) :
    (jsTrim (itemLine i) ≠ []
      ∧ startsW (jsTrim (itemLine i)) ("Activity:".toList) = false
      ∧ startsW (jsTrim (itemLine i)) ("RecurringOverride:".toList) = false
      ∧ startsW (jsTrim (itemLine i)) ("-".toList) = true)
    ∧ hasInfix ("[x]".toList) (jsTrim (itemLine i)) = i.done
    ∧ stripItemMark (jsTrim (itemLine i)) = i.text := by
  by_cases ht : i.text = []
  · cases hd : i.done
    · rw [show itemLine i = "- [ ] ".toList from by rw [itemLine, hd, ht]; rfl, ht]
      decide
    · rw [show itemLine i = "- [x] ".toList from by rw [itemLine, hd, ht]; rfl, ht]
      decide
  · cases hd : i.done
    · rw [itemLine_trim_f i w hd ht]
      refine ⟨⟨by simp, rfl, rfl, rfl⟩, ?_, rfl⟩
      rw [hasInfix, hasInfix, hasInfix, hasInfix, hasInfix, hasInfix]
      rw [show startsW ('-' :: ' ' :: '[' :: ' ' :: ']' :: ' ' :: i.text) ("[x]".toList) = false from rfl]
      rw [show startsW (' ' :: '[' :: ' ' :: ']' :: ' ' :: i.text) ("[x]".toList) = false from rfl]
      rw [show startsW ('[' :: ' ' :: ']' :: ' ' :: i.text) ("[x]".toList) = false from rfl]
      rw [show startsW (' ' :: ']' :: ' ' :: i.text) ("[x]".toList) = false from rfl]
      rw [show startsW (']' :: ' ' :: i.text) ("[x]".toList) = false from rfl]
      rw [show startsW (' ' :: i.text) ("[x]".toList) = false from rfl]
      rw [w.2 hd]
      simp
    · rw [itemLine_trim_t i w hd ht]
      refine ⟨⟨by simp, rfl, rfl, rfl⟩, ?_, rfl⟩
      rw [hasInfix, hasInfix, hasInfix]
      rw [show startsW ('[' :: 'x' :: ']' :: ' ' :: i.text) ("[x]".toList) = true from by
        simp [startsW]]
      simp

end Scheduler

namespace Scheduler

theorem stepLine_itemLine_cur (st : PState) (a0 : Activity) (i : Item)
    (hcur : st.current = some a0) (w : WfItemText i) :
    stepLine st (itemLine i)
      = some { st with current := some { a0 with items := a0.items ++ [i] } } := by
  obtain ⟨⟨h0, h1, h2, h3⟩, h4, h5⟩ := itemTl_facts i w
  simp only [stepLine, h1, h2, h3, h4, h5, hcur, if_neg h0]
  simp

theorem stepLine_itemLine_ov (st : PState) (k : Str) (i : Item)
    (hcur : st.current = none) (hco : st.currentOverride = some k)
    (w : WfItemText i) :
    stepLine st (itemLine i)
      = some { st with overrides := updOv st.overrides k (fun ov => { ov with itemOverrides := ov.itemOverrides ++ [i] }) } := by
  obtain ⟨⟨h0, h1, h2, h3⟩, h4, h5⟩ := itemTl_facts i w
  simp only [stepLine, h1, h2, h3, h4, h5, hcur, hco, if_neg h0]
  simp

end Scheduler
namespace Scheduler

theorem stepLine_ovHeaderLine (st : PState) (r : Str) (ov : Override)
    (hrtrim : jsTrim r = r)
    (hnodone : ov.done = false → endsW r ("[x]".toList) = false) :
    stepLine st (ovHeaderLine r ov)
      = some { flushCur st with overrides := setOv (flushCur st).overrides r ⟨ov.done, [], []⟩, currentOverride := some r } := by
  by_cases hr : r = []
  · subst hr
    cases hd : ov.done
    · rw [show ovHeaderLine [] ov = "RecurringOverride: ".toList from by
        rw [ovHeaderLine]; simp [hd]]
      rfl
    · rw [show ovHeaderLine [] ov = "RecurringOverride:  [x]".toList from by
        rw [ovHeaderLine]; simp [hd]]
      rfl
  · obtain ⟨rc, rs, hrc⟩ : ∃ c cs, r = c :: cs := by
      cases r with
      | nil => exact absurd rfl hr
      | cons c cs => exact ⟨c, cs, rfl⟩
    have hcw : rc.isWhitespace = false := by
      apply not_ws_head_of_trimLeft (s := rs)
      rw [← hrc]; exact jsTrimLeft_of_jsTrim hrtrim
    cases hd : ov.done
    · have hXR : jsTrimRight r = r := jsTrimRight_of_jsTrim hrtrim
      have hline : ovHeaderLine r ov
          = ('R' :: "ecurringOverride: ".toList) ++ r := by
        rw [ovHeaderLine]; simp [hd]
      have htrim : jsTrim (ovHeaderLine r ov)
          = ('R' :: "ecurringOverride: ".toList) ++ r := by
        rw [hline]; exact jsTrim_header (by decide) _ _ hXR hr
      have hne : ('R' :: "ecurringOverride: ".toList) ++ r ≠ [] := by simp
      have hA : startsW (('R' :: "ecurringOverride: ".toList) ++ r)
          ("Activity:".toList) = false := by
        rw [List.cons_append]; exact startsW_cons_ne (by decide) _ _
      have hR18 : startsW (('R' :: "ecurringOverride: ".toList) ++ r)
          ("RecurringOverride:".toList) = true := by
        rw [show ('R' :: "ecurringOverride: ".toList) ++ r
            = "RecurringOverride:".toList ++ (' ' :: r) from rfl]
        exact startsW_append_self _ _
      have hpay : jsTrim ((('R' :: "ecurringOverride: ".toList) ++ r).drop 18)
          = r := by
        rw [show (('R' :: "ecurringOverride: ".toList) ++ r).drop 18
            = ' ' :: r from rfl]
        rw [jsTrim_ws_cons (by decide)]
        exact hrtrim
      have hend : endsW r ("[x]".toList) = false := hnodone hd
      simp only [stepLine, htrim, hA, hR18, hpay, hend, if_neg hne]
      simp
    · have hXR : jsTrimRight (r ++ (' ' :: '[' :: 'x' :: ']' :: []))
          = r ++ (' ' :: '[' :: 'x' :: ']' :: []) := by
        rw [show r ++ (' ' :: '[' :: 'x' :: ']' :: [])
            = (r ++ [' ', '[', 'x']) ++ [']'] by simp]
        exact jsTrimRight_endbracket _
      have hline : ovHeaderLine r ov
          = ('R' :: "ecurringOverride: ".toList)
            ++ (r ++ (' ' :: '[' :: 'x' :: ']' :: [])) := by
        rw [ovHeaderLine]; simp [hd]
      have htrim : jsTrim (ovHeaderLine r ov)
          = ('R' :: "ecurringOverride: ".toList)
            ++ (r ++ (' ' :: '[' :: 'x' :: ']' :: [])) := by
        rw [hline]; exact jsTrim_header (by decide) _ _ hXR (by simp)
      have hne : ('R' :: "ecurringOverride: ".toList)
          ++ (r ++ (' ' :: '[' :: 'x' :: ']' :: [])) ≠ [] := by simp
      have hA : startsW (('R' :: "ecurringOverride: ".toList)
          ++ (r ++ (' ' :: '[' :: 'x' :: ']' :: []))) ("Activity:".toList)
          = false := by
        rw [List.cons_append]; exact startsW_cons_ne (by decide) _ _
      have hR18 : startsW (('R' :: "ecurringOverride: ".toList)
          ++ (r ++ (' ' :: '[' :: 'x' :: ']' :: [])))
          ("RecurringOverride:".toList) = true := by
        rw [show ('R' :: "ecurringOverride: ".toList)
            ++ (r ++ (' ' :: '[' :: 'x' :: ']' :: []))
            = "RecurringOverride:".toList
              ++ (' ' :: (r ++ (' ' :: '[' :: 'x' :: ']' :: []))) from rfl]
        exact startsW_append_self _ _
      have hpay : jsTrim ((('R' :: "ecurringOverride: ".toList)
          ++ (r ++ (' ' :: '[' :: 'x' :: ']' :: []))).drop 18)
          = r ++ (' ' :: '[' :: 'x' :: ']' :: []) := by
        rw [show (('R' :: "ecurringOverride: ".toList)
            ++ (r ++ (' ' :: '[' :: 'x' :: ']' :: []))).drop 18
            = ' ' :: (r ++ (' ' :: '[' :: 'x' :: ']' :: [])) from rfl]
        rw [jsTrim_ws_cons (by decide)]
        exact jsTrim_append_parts hrtrim hr (by decide) (by simp)
      have hend : endsW (r ++ (' ' :: '[' :: 'x' :: ']' :: []))
          ("[x]".toList) = true := by
        rw [show r ++ (' ' :: '[' :: 'x' :: ']' :: [])
            = (r ++ [' ']) ++ "[x]".toList by simp]
        exact endsW_append_self _ _
      have hstrip : stripDoneTag (r ++ (' ' :: '[' :: 'x' :: ']' :: []))
          = r := by
        rw [stripDoneTag_spec, jsTrimRight_of_jsTrim hrtrim]
      simp only [stepLine, htrim, hA, hR18, hpay, hend, hstrip, if_neg hne]
      simp

end Scheduler
namespace Scheduler

theorem jsTrimLeft_append_of_trim {r : Str} (hrtrim : jsTrim r = r) (c : Char)
    (hc : c.isWhitespace = false) (t : Str) :
    jsTrimLeft (r ++ c :: t) = r ++ c :: t := by
  cases r with
  | nil => simpa using jsTrimLeft_cons_not_ws hc t
  | cons a as =>
    have ha : a.isWhitespace = false :=
      not_ws_head_of_trimLeft (jsTrimLeft_of_jsTrim hrtrim)
    exact jsTrimLeft_append_of_head ha _ _

theorem stepLine_stateLine (st : PState) (r k : Str) (b : Bool)
    (hrtrim : jsTrim r = r) (hrbar : '|' ∉ r) (hkbar : '|' ∉ k)
    (hfind : (findOv st.overrides r).isNone = false) :
    stepLine st (stateLine r (k, b))
      = some { st with overrides := updOv st.overrides r (fun ov => { ov with itemState := setState ov.itemState k b }) } := by
  cases b
  · have hWR : jsTrimRight (r ++ '|' :: (k ++ ['|']))
        = r ++ '|' :: (k ++ ['|']) := by
      rw [show r ++ '|' :: (k ++ ['|']) = (r ++ '|' :: k) ++ ['|'] by simp]
      exact jsTrimRight_append_not_ws (by decide) _
    have hWL : jsTrimLeft (r ++ '|' :: (k ++ ['|']))
        = r ++ '|' :: (k ++ ['|']) :=
      jsTrimLeft_append_of_trim hrtrim '|' (by decide) _
    have hline : stateLine r (k, false)
        = (('I' :: "temState: ".toList) ++ (r ++ '|' :: (k ++ ['|']))) ++ [' '] := by
      rw [stateLine]; simp
    have htrim : jsTrim (stateLine r (k, false))
        = ('I' :: "temState: ".toList) ++ (r ++ '|' :: (k ++ ['|'])) := by
      rw [hline, jsTrim_append_ws (by decide)]
      exact jsTrim_header (by decide) _ _ hWR (by simp)
    have hne : ('I' :: "temState: ".toList) ++ (r ++ '|' :: (k ++ ['|'])) ≠ [] := by
      simp
    have hA : startsW (('I' :: "temState: ".toList) ++ (r ++ '|' :: (k ++ ['|'])))
        ("Activity:".toList) = false := by
      rw [List.cons_append]; exact startsW_cons_ne (by decide) _ _
    have hRO : startsW (('I' :: "temState: ".toList) ++ (r ++ '|' :: (k ++ ['|'])))
        ("RecurringOverride:".toList) = false := by
      rw [List.cons_append]; exact startsW_cons_ne (by decide) _ _
    have hDash : startsW (('I' :: "temState: ".toList) ++ (r ++ '|' :: (k ++ ['|'])))
        ("-".toList) = false := by
      rw [List.cons_append]; exact startsW_cons_ne (by decide) _ _
    have hIS : startsW (('I' :: "temState: ".toList) ++ (r ++ '|' :: (k ++ ['|'])))
        ("ItemState:".toList) = true := by
      rw [show ('I' :: "temState: ".toList) ++ (r ++ '|' :: (k ++ ['|']))
          = "ItemState:".toList ++ (' ' :: (r ++ '|' :: (k ++ ['|']))) from rfl]
      exact startsW_append_self _ _
    have hpay : jsTrim ((('I' :: "temState: ".toList)
        ++ (r ++ '|' :: (k ++ ['|']))).drop 10)
        = r ++ '|' :: (k ++ ['|']) := by
      rw [show (('I' :: "temState: ".toList)
          ++ (r ++ '|' :: (k ++ ['|']))).drop 10
          = ' ' :: (r ++ '|' :: (k ++ ['|'])) from rfl]
      rw [jsTrim_ws_cons (by decide)]
      exact jsTrim_eq_self_parts hWL hWR
    have hsplit : splitCh '|' (r ++ '|' :: (k ++ ['|'])) = [r, k, []] := by
      rw [splitCh_not_mem_append hrbar,
        show k ++ ['|'] = k ++ '|' :: [] from rfl,
        splitCh_not_mem_append hkbar]
      rfl
    simp only [stepLine, htrim, hA, hRO, hDash, hIS, hpay, hsplit, if_neg hne]
    simp only [show (decide (jsTrim ([] : Str) = ['x'])) = false from by decide]
    simp [hfind]
  · have hWR : jsTrimRight (r ++ '|' :: (k ++ '|' :: ['x']))
        = r ++ '|' :: (k ++ '|' :: ['x']) := by
      rw [show r ++ '|' :: (k ++ '|' :: ['x'])
          = (r ++ '|' :: (k ++ ['|'])) ++ ['x'] by simp]
      exact jsTrimRight_append_not_ws (by decide) _
    have hWL : jsTrimLeft (r ++ '|' :: (k ++ '|' :: ['x']))
        = r ++ '|' :: (k ++ '|' :: ['x']) :=
      jsTrimLeft_append_of_trim hrtrim '|' (by decide) _
    have hline : stateLine r (k, true)
        = ('I' :: "temState: ".toList) ++ (r ++ '|' :: (k ++ '|' :: ['x'])) := by
      rw [stateLine]; simp
    have htrim : jsTrim (stateLine r (k, true))
        = ('I' :: "temState: ".toList) ++ (r ++ '|' :: (k ++ '|' :: ['x'])) := by
      rw [hline]
      exact jsTrim_header (by decide) _ _ hWR (by simp)
    have hne : ('I' :: "temState: ".toList)
        ++ (r ++ '|' :: (k ++ '|' :: ['x'])) ≠ [] := by simp
    have hA : startsW (('I' :: "temState: ".toList)
        ++ (r ++ '|' :: (k ++ '|' :: ['x']))) ("Activity:".toList) = false := by
      rw [List.cons_append]; exact startsW_cons_ne (by decide) _ _
    have hRO : startsW (('I' :: "temState: ".toList)
        ++ (r ++ '|' :: (k ++ '|' :: ['x']))) ("RecurringOverride:".toList)
        = false := by
      rw [List.cons_append]; exact startsW_cons_ne (by decide) _ _
    have hDash : startsW (('I' :: "temState: ".toList)
        ++ (r ++ '|' :: (k ++ '|' :: ['x']))) ("-".toList) = false := by
      rw [List.cons_append]; exact startsW_cons_ne (by decide) _ _
    have hIS : startsW (('I' :: "temState: ".toList)
        ++ (r ++ '|' :: (k ++ '|' :: ['x']))) ("ItemState:".toList) = true := by
      rw [show ('I' :: "temState: ".toList) ++ (r ++ '|' :: (k ++ '|' :: ['x']))
          = "ItemState:".toList ++ (' ' :: (r ++ '|' :: (k ++ '|' :: ['x'])))
          from rfl]
      exact startsW_append_self _ _
    have hpay : jsTrim ((('I' :: "temState: ".toList)
        ++ (r ++ '|' :: (k ++ '|' :: ['x']))).drop 10)
        = r ++ '|' :: (k ++ '|' :: ['x']) := by
      rw [show (('I' :: "temState: ".toList)
          ++ (r ++ '|' :: (k ++ '|' :: ['x']))).drop 10
          = ' ' :: (r ++ '|' :: (k ++ '|' :: ['x'])) from rfl]
      rw [jsTrim_ws_cons (by decide)]
      exact jsTrim_eq_self_parts hWL hWR
    have hsplit : splitCh '|' (r ++ '|' :: (k ++ '|' :: ['x']))
        = [r, k, ['x']] := by
      rw [splitCh_not_mem_append hrbar, splitCh_not_mem_append hkbar]
      rfl
    simp only [stepLine, htrim, hA, hRO, hDash, hIS, hpay, hsplit, if_neg hne]
    simp only [show (decide (jsTrim (['x'] : Str) = ['x'])) = true from by decide]
    simp [hfind]

end Scheduler
namespace Scheduler

theorem mem_jsTrimLeft {x : Char} {s : Str} (h : x ∈ jsTrimLeft s) : x ∈ s := by
  induction s with
  | nil => simpa [jsTrimLeft] using h
  | cons c cs ih =>
    rw [jsTrimLeft] at h
    by_cases hw : c.isWhitespace
    · rw [if_pos hw] at h
      exact List.mem_cons_of_mem c (ih h)
    · rwa [if_neg hw] at h

theorem mem_jsTrimRight {x : Char} {s : Str} (h : x ∈ jsTrimRight s) : x ∈ s := by
  induction s with
  | nil => simpa [jsTrimRight] using h
  | cons c cs ih =>
    rw [jsTrimRight_cons] at h
    cases hr : jsTrimRight cs with
    | nil =>
      rw [hr] at h
      by_cases hw : c.isWhitespace
      · rw [if_pos hw] at h; simp at h
      · rw [if_neg hw] at h
        simp only [List.mem_singleton] at h
        exact h ▸ List.mem_cons_self c cs
    | cons d ds =>
      rw [hr] at h
      rcases List.mem_cons.mp h with rfl | h2
      · exact List.mem_cons_self x cs
      · exact List.mem_cons_of_mem c (ih (hr ▸ h2))

theorem mem_jsTrim {x : Char} {s : Str} (h : x ∈ jsTrim s) : x ∈ s :=
  mem_jsTrimRight (mem_jsTrimLeft h)

theorem not_mem_jsTrim {x : Char} {s : Str} (h : x ∉ s) : x ∉ jsTrim s :=
  fun hm => h (mem_jsTrim hm)

theorem mem_joinCh {c : Char} {x : Char} :
    ∀ {ps : List Str}, x ∈ joinCh c ps → x = c ∨ ∃ p ∈ ps, x ∈ p
  | [], h => by simp [joinCh] at h
  | [p], h => by right; exact ⟨p, List.mem_singleton_self p, by simpa [joinCh] using h⟩
  | p :: q :: ps, h => by
    rw [show joinCh c (p :: q :: ps) = p ++ c :: joinCh c (q :: ps) from rfl] at h
    rcases List.mem_append.mp h with h1 | h2
    · exact Or.inr ⟨p, List.mem_cons_self p _, h1⟩
    · rcases List.mem_cons.mp h2 with rfl | h3
      · exact Or.inl rfl
      · rcases mem_joinCh h3 with h4 | ⟨q2, hq2, hx⟩
        · exact Or.inl h4
        · exact Or.inr ⟨q2, List.mem_cons_of_mem p hq2, hx⟩

theorem startsW_length_le : ∀ {s p : Str}, startsW s p = true → p.length ≤ s.length
  | _, [], _ => by simp
  | [], _ :: _, h => by simp [startsW] at h
  | a :: s, b :: p, h => by
    rw [startsW] at h
    simp only [Bool.and_eq_true, decide_eq_true_eq] at h
    simpa using Nat.succ_le_succ (startsW_length_le h.2)

theorem endsW_of_suffix {t s p : Str} (hsuf : t <:+ s) (h : endsW t p = true) :
    endsW s p = true := by
  obtain ⟨w, rfl⟩ := hsuf
  have hlen : p.length ≤ t.length := by
    have := startsW_length_le h
    simpa [endsW] using this
  rw [endsW_append_right hlen]
  exact h

theorem jsTrimRight_length_le (s : Str) : (jsTrimRight s).length ≤ s.length := by
  induction s with
  | nil => simp [jsTrimRight]
  | cons c cs ih =>
    rw [jsTrimRight_cons]
    cases hr : jsTrimRight cs with
    | nil =>
      by_cases hw : c.isWhitespace <;> simp [hw]
    | cons d ds =>
      rw [hr] at ih
      simpa using Nat.succ_le_succ ih

theorem suffix_trimRight_stable {s t : Str} (hsuf : s <:+ t)
    (ht : jsTrimRight t = t) : jsTrimRight s = s := by
  obtain ⟨w, rfl⟩ := hsuf
  rw [jsTrimRight_append] at ht
  by_cases hs : jsTrimRight s = []
  · rw [if_pos hs] at ht
    cases s with
    | nil => rfl
    | cons a as =>
      have h1 := jsTrimRight_length_le w
      rw [ht] at h1
      simp at h1
  · rw [if_neg hs] at ht
    exact List.append_cancel_left ht

theorem jsTrimLeft_suffix (s : Str) : jsTrimLeft s <:+ s := by
  induction s with
  | nil => simp [jsTrimLeft]
  | cons c cs ih =>
    rw [jsTrimLeft]
    by_cases hw : c.isWhitespace
    · rw [if_pos hw]
      exact ih.trans (List.suffix_cons c cs)
    · rw [if_neg hw]

theorem parseLinesAux_append (ls1 ls2 : List Str) : ∀ st : PState,
    parseLinesAux st (ls1 ++ ls2)
      = (parseLinesAux st ls1).bind (fun st2 => parseLinesAux st2 ls2) := by
  induction ls1 with
  | nil => intro st; simp [parseLinesAux]
  | cons l ls ih =>
    intro st
    rw [List.cons_append, parseLinesAux, parseLinesAux]
    cases stepLine st l with
    | none => simp
    | some st2 => simpa using ih st2

theorem splitCh_withNl : ∀ {L : List Str}, (∀ l ∈ L, '\n' ∉ l) →
    splitCh '\n' (withNl L) = L ++ [[]]
  | [], _ => rfl
  | l :: ls, h => by
    have hl : '\n' ∉ l := h l (List.mem_cons_self l ls)
    have hls : ∀ l2 ∈ ls, '\n' ∉ l2 := fun l2 hm => h l2 (List.mem_cons_of_mem l hm)
    have hw : withNl (l :: ls) = l ++ '\n' :: withNl ls := by
      rw [withNl, withNl]; simp
    rw [hw, splitCh_not_mem_append hl, splitCh_withNl hls]
    rfl

theorem flushCur_overrides (st : PState) : (flushCur st).overrides = st.overrides := by
  rw [flushCur]; cases st.current <;> rfl

theorem flushCur_current (st : PState) : (flushCur st).current = none := by
  rw [flushCur]
  cases h : st.current with
  | none => exact h
  | some a => rfl

theorem flushCur_currentOverride (st : PState) :
    (flushCur st).currentOverride = st.currentOverride := by
  rw [flushCur]; cases st.current <;> rfl

end Scheduler
namespace Scheduler

theorem findOv_append_single_ne {r r2 : Str} (h : r2 ≠ r) (m : Overrides)
    (v : Override) : findOv (m ++ [(r, v)]) r2 = findOv m r2 := by
  induction m with
  | nil =>
    rw [List.nil_append]
    simp only [findOv]
    exact if_neg (fun he => h he.symm)
  | cons e rest ih =>
    obtain ⟨k, w⟩ := e
    rw [List.cons_append, findOv, findOv]
    by_cases hk : k = r2
    · simp [hk]
    · rw [if_neg hk, if_neg hk, ih]

theorem parseLinesAux_blank (st : PState) (ls : List Str) :
    parseLinesAux st ([] :: ls) = parseLinesAux st ls := rfl

theorem parseLinesAux_cons_some {st st2 : PState} {l : Str}
    (h : stepLine st l = some st2) (ls : List Str) :
    parseLinesAux st (l :: ls) = parseLinesAux st2 ls := by
  rw [parseLinesAux, h]

theorem stepLine_actHeaderLine (st : PState) (a : Activity) (w : ActWf a) :
    stepLine st (actHeaderLine a)
      = some { flushCur st with current := some ⟨a.title, a.time, [], a.done, false⟩, currentOverride := none } := by
  obtain ⟨h0, h1, h2⟩ := actHeader_reparse a w
  simp only [stepLine, h1, h2, if_neg h0]
  simp

theorem run_items_cur (items : List Item) : ∀ (st : PState) (a0 : Activity)
    (rest : List Str), st.current = some a0 → (∀ i ∈ items, WfItemText i) →
    parseLinesAux st (items.map itemLine ++ rest)
      = parseLinesAux { st with current := some { a0 with items := a0.items ++ items } } rest := by
  induction items with
  | nil =>
    intro st a0 rest hcur _
    obtain ⟨acts, ovs, cur, co⟩ := st
    simp only at hcur
    subst hcur
    simp
  | cons i is ih =>
    intro st a0 rest hcur hw
    rw [List.map_cons, List.cons_append,
      parseLinesAux_cons_some
        (stepLine_itemLine_cur st a0 i hcur (hw i (List.mem_cons_self i is))) _]
    rw [ih _ _ rest rfl (fun j hj => hw j (List.mem_cons_of_mem i hj))]
    have hassoc : (a0.items ++ [i]) ++ is = a0.items ++ i :: is := by simp
    simp only [hassoc]

theorem run_act_block (st : PState) (a : Activity) (rest : List Str)
    (w : ActWf a) :
    parseLinesAux st (actLines a ++ rest) = parseLinesAux (actStep st a) rest := by
  rw [actLines, List.cons_append,
    parseLinesAux_cons_some (stepLine_actHeaderLine st a w) _]
  rw [run_items_cur a.items _ ⟨a.title, a.time, [], a.done, false⟩ rest rfl
    (fun i hi => (w.items i hi).2)]
  congr 1
  have hrec := w.recb
  obtain ⟨t, m, its, d, r⟩ := a
  simp only at hrec
  subst hrec
  simp [actStep]

end Scheduler
namespace Scheduler

theorem run_items_ov (items : List Item) : ∀ (st : PState) (k : Str)
    (pre : Overrides) (ov0 : Override) (rest : List Str),
    st.current = none → st.currentOverride = some k →
    st.overrides = pre ++ [(k, ov0)] → findOv pre k = none →
    (∀ i ∈ items, WfItemText i) →
    parseLinesAux st (items.map itemLine ++ rest)
      = parseLinesAux { st with overrides := pre ++ [(k, { ov0 with itemOverrides := ov0.itemOverrides ++ items })] } rest := by
  induction items with
  | nil =>
    intro st k pre ov0 rest hcur hco hovs hfresh _
    obtain ⟨acts, ovs, cur, co⟩ := st
    simp only at hovs
    subst hovs
    simp
  | cons i is ih =>
    intro st k pre ov0 rest hcur hco hovs hfresh hw
    have hstep := stepLine_itemLine_ov st k i hcur hco (hw i (List.mem_cons_self i is))
    rw [hovs, updOv_append_fresh hfresh] at hstep
    rw [List.map_cons, List.cons_append, parseLinesAux_cons_some hstep _]
    rw [ih { st with overrides := pre ++ [(k, { ov0 with itemOverrides := ov0.itemOverrides ++ [i] })] } k pre { ov0 with itemOverrides := ov0.itemOverrides ++ [i] } rest hcur hco rfl hfresh (fun j hj => hw j (List.mem_cons_of_mem i hj))]
    have hassoc : (ov0.itemOverrides ++ [i]) ++ is = ov0.itemOverrides ++ i :: is := by
      simp
    simp only [hassoc]

theorem run_states (kvs : List (Str × Bool)) : ∀ (st : PState) (k : Str)
    (pre : Overrides) (ov0 : Override) (rest : List Str),
    st.overrides = pre ++ [(k, ov0)] → findOv pre k = none →
    jsTrim k = k → '|' ∉ k → (∀ kv ∈ kvs, '|' ∉ kv.1) →
    parseLinesAux st (kvs.map (stateLine k) ++ rest)
      = parseLinesAux { st with overrides := pre ++ [(k, { ov0 with itemState := kvs.foldl (fun m kv => setState m kv.1 kv.2) ov0.itemState })] } rest := by
  induction kvs with
  | nil =>
    intro st k pre ov0 rest hovs hfresh _ _ _
    obtain ⟨acts, ovs, cur, co⟩ := st
    simp only at hovs
    subst hovs
    simp
  | cons kv kvs2 ih =>
    intro st k pre ov0 rest hovs hfresh hktrim hkbar hw
    have hfind : (findOv st.overrides k).isNone = false := by
      rw [hovs, findOv_append_fresh hfresh]
      rfl
    have hstep := stepLine_stateLine st k kv.1 kv.2 hktrim hkbar
      (hw kv (List.mem_cons_self kv kvs2)) hfind
    rw [hovs, updOv_append_fresh hfresh] at hstep
    rw [List.map_cons, List.cons_append]
    rw [show stateLine k kv = stateLine k (kv.1, kv.2) from rfl]
    rw [parseLinesAux_cons_some hstep _]
    rw [ih { st with overrides := pre ++ [(k, { ov0 with itemState := setState ov0.itemState kv.1 kv.2 })] } k pre { ov0 with itemState := setState ov0.itemState kv.1 kv.2 } rest rfl hfresh hktrim hkbar (fun j hj => hw j (List.mem_cons_of_mem kv hj))]
    rfl

end Scheduler
namespace Scheduler

theorem run_ov_block (st : PState) (e : Str × Override) (rest : List Str)
    (w : OvWf e) (hfresh : findOv st.overrides e.1 = none) :
    parseLinesAux st (ovLines e ++ rest) = parseLinesAux (ovStep st e) rest := by
  obtain ⟨r, d, io, istate⟩ := e
  have hstep := stepLine_ovHeaderLine st r ⟨d, io, istate⟩ w.rtrim w.rnodone
  have hfr2 : findOv (flushCur st).overrides r = none := by
    rw [flushCur_overrides]; exact hfresh
  rw [setOv_append_fresh hfr2] at hstep
  rw [ovLines, List.cons_append, parseLinesAux_cons_some hstep _,
    List.append_assoc]
  rw [run_items_ov io
    { flushCur st with overrides := (flushCur st).overrides ++ [(r, ⟨d, [], []⟩)], currentOverride := some r }
    r (flushCur st).overrides ⟨d, [], []⟩ _
    (flushCur_current st) rfl rfl hfr2 (fun i hi => (w.io i hi).2)]
  simp only [List.nil_append]
  cases histate : istate with
  | nil =>
    simp only [List.map_nil, List.nil_append]
    rfl
  | cons kv kvs =>
    have hbar : '|' ∉ r := w.rbar (by rw [histate]; simp)
    rw [← histate]
    rw [run_states istate
      { flushCur st with overrides := (flushCur st).overrides ++ [(r, ⟨d, io, []⟩)], currentOverride := some r }
      r (flushCur st).overrides ⟨d, io, []⟩ rest rfl hfr2 w.rtrim hbar
      (fun kv2 hkv2 => (w.keys kv2 hkv2).2)]
    rw [foldl_setState [] (by simp) w.knodup]
    simp only [List.nil_append]
    rfl

end Scheduler
namespace Scheduler

theorem run_acts (acts : List Activity) : ∀ (st : PState) (rest : List Str),
    (∀ a ∈ acts, ActWf a) →
    parseLinesAux st ((acts.map (fun a => actLines a ++ [[]])).flatten ++ rest)
      = parseLinesAux (acts.foldl actStep st) rest := by
  induction acts with
  | nil => intro st rest _; simp
  | cons a as ih =>
    intro st rest hw
    rw [List.map_cons, List.flatten_cons, List.append_assoc, List.append_assoc,
      run_act_block st a _ (hw a (List.mem_cons_self a as)),
      List.singleton_append, parseLinesAux_blank,
      ih _ rest (fun b hb => hw b (List.mem_cons_of_mem a hb))]
    rfl

theorem run_ovs (ovs : Overrides) : ∀ (st : PState) (rest : List Str),
    (∀ e ∈ ovs, OvWf e) →
    (∀ e ∈ ovs, findOv st.overrides e.1 = none) →
    (ovs.map Prod.fst).Nodup →
    parseLinesAux st ((ovs.map (fun e => ovLines e ++ [[]])).flatten ++ rest)
      = parseLinesAux (ovs.foldl ovStep st) rest := by
  induction ovs with
  | nil => intro st rest _ _ _; simp
  | cons e es ih =>
    intro st rest hw hfr hnd
    simp only [List.map_cons, List.nodup_cons] at hnd
    rw [List.map_cons, List.flatten_cons, List.append_assoc, List.append_assoc,
      run_ov_block st e _ (hw e (List.mem_cons_self e es))
        (hfr e (List.mem_cons_self e es)),
      List.singleton_append, parseLinesAux_blank]
    rw [ih (ovStep st e) rest (fun e2 h2 => hw e2 (List.mem_cons_of_mem e h2))
      ?_ hnd.2]
    · rfl
    · intro e2 h2
      have hne : e2.1 ≠ e.1 := by
        intro heq
        exact hnd.1 (heq ▸ List.mem_map_of_mem Prod.fst h2)
      have hov : (ovStep st e).overrides = st.overrides ++ [(e.1, e.2)] := by
        rw [ovStep]
        simp only
        rw [flushCur_overrides]
      rw [hov, findOv_append_single_ne hne]
      exact hfr e2 (List.mem_cons_of_mem e h2)

end Scheduler
namespace Scheduler

theorem foldl_actStep (acts : List Activity) : ∀ st : PState,
    (flushCur (acts.foldl actStep st)).activities = (flushCur st).activities ++ acts
    ∧ (acts.foldl actStep st).overrides = st.overrides := by
  induction acts with
  | nil => intro st; simp
  | cons a as ih =>
    intro st
    rw [List.foldl_cons]
    obtain ⟨h1, h2⟩ := ih (actStep st a)
    constructor
    · rw [h1]
      have hact : (flushCur (actStep st a)).activities
          = (flushCur st).activities ++ [a] := rfl
      rw [hact]
      simp
    · rw [h2]
      exact flushCur_overrides st

theorem foldl_ovStep (ovs : Overrides) : ∀ st : PState,
    (flushCur (ovs.foldl ovStep st)).activities = (flushCur st).activities
    ∧ (ovs.foldl ovStep st).overrides = st.overrides ++ ovs := by
  induction ovs with
  | nil => intro st; simp
  | cons e es ih =>
    intro st
    rw [List.foldl_cons]
    obtain ⟨h1, h2⟩ := ih (ovStep st e)
    have hcur : (ovStep st e).current = none := flushCur_current st
    have hfl : flushCur (ovStep st e) = ovStep st e := flushCur_of_none hcur
    constructor
    · rw [h1, hfl]
      rfl
    · rw [h2]
      have hov : (ovStep st e).overrides = st.overrides ++ [e] := by
        rw [ovStep]
        simp only
        rw [flushCur_overrides]
      rw [hov]
      simp

theorem actHeaderLine_no_nl {a : Activity} (h1 : '\n' ∉ a.title)
    (h2 : '\n' ∉ a.time) : '\n' ∉ actHeaderLine a := by
  intro hm
  rw [actHeaderLine] at hm
  simp only [List.mem_append] at hm
  rcases hm with hm | hm
  · rcases hm with hm | hm
    · exact absurd hm (by decide)
    · by_cases ht : a.time ≠ []
      · rw [if_pos ht] at hm
        simp only [List.mem_append] at hm
        rcases hm with (hm | hm) | hm
        · exact h2 hm
        · exact absurd hm (by decide)
        · exact h1 hm
      · rw [if_neg ht] at hm
        exact h1 hm
  · by_cases hd : a.done
    · rw [if_pos hd] at hm
      exact absurd hm (by decide)
    · rw [if_neg hd] at hm
      simp at hm

theorem itemLine_no_nl {i : Item} (h : '\n' ∉ i.text) : '\n' ∉ itemLine i := by
  intro hm
  rw [itemLine] at hm
  simp only [List.mem_append] at hm
  rcases hm with ((hm | hm) | hm) | hm
  · exact absurd hm (by decide)
  · by_cases hd : i.done
    · rw [if_pos hd] at hm; exact absurd hm (by decide)
    · rw [if_neg hd] at hm; exact absurd hm (by decide)
  · exact absurd hm (by decide)
  · exact h hm

theorem ovHeaderLine_no_nl {r : Str} {ov : Override} (h : '\n' ∉ r) :
    '\n' ∉ ovHeaderLine r ov := by
  intro hm
  rw [ovHeaderLine] at hm
  simp only [List.mem_append] at hm
  rcases hm with (hm | hm) | hm
  · exact absurd hm (by decide)
  · exact h hm
  · by_cases hd : ov.done
    · rw [if_pos hd] at hm; exact absurd hm (by decide)
    · rw [if_neg hd] at hm; simp at hm

theorem stateLine_no_nl {r k : Str} {b : Bool} (h1 : '\n' ∉ r)
    (h2 : '\n' ∉ k) : '\n' ∉ stateLine r (k, b) := by
  intro hm
  rw [stateLine] at hm
  simp only [List.mem_append, List.mem_cons, List.mem_singleton] at hm
  rcases hm with ((hm | hm) | hm | hm) | hm | hm
  · exact absurd hm (by decide)
  · exact h1 hm
  · exact absurd hm (by decide)
  · exact h2 hm
  · exact absurd hm (by decide)
  · cases b <;> simp at hm

end Scheduler
namespace Scheduler

theorem serializeLines_no_nl (A : List Activity) (O : Overrides)
    (hA : ∀ a ∈ A, ActWf a) (hO : ∀ e ∈ O, OvWf e) :
    ∀ l ∈ serializeLines A O, '\n' ∉ l := by
  intro l hl
  rw [serializeLines] at hl
  rcases List.mem_append.mp hl with hl | hl
  · obtain ⟨blk, hblk, hlblk⟩ := List.mem_flatten.mp hl
    obtain ⟨a, ha, rfl⟩ := List.mem_map.mp hblk
    have ha2 := hA a (List.mem_filter.mp ha).1
    rcases List.mem_append.mp hlblk with hl2 | hl2
    · rw [actLines] at hl2
      rcases List.mem_cons.mp hl2 with rfl | hl3
      · exact actHeaderLine_no_nl ha2.tnl ha2.timenl
      · obtain ⟨i, hi, rfl⟩ := List.mem_map.mp hl3
        exact itemLine_no_nl (ha2.items i hi).1
    · rw [List.mem_singleton.mp hl2]
      simp
  · obtain ⟨blk, hblk, hlblk⟩ := List.mem_flatten.mp hl
    obtain ⟨e, he, rfl⟩ := List.mem_map.mp hblk
    have he2 := hO e he
    rcases List.mem_append.mp hlblk with hl2 | hl2
    · rw [ovLines] at hl2
      rcases List.mem_cons.mp hl2 with rfl | hl3
      · exact ovHeaderLine_no_nl he2.rnl
      · rcases List.mem_append.mp hl3 with hl4 | hl4
        · obtain ⟨i, hi, rfl⟩ := List.mem_map.mp hl4
          exact itemLine_no_nl (he2.io i hi).1
        · obtain ⟨kv, hkv, rfl⟩ := List.mem_map.mp hl4
          exact stateLine_no_nl he2.rnl (he2.keys kv hkv).1
    · rw [List.mem_singleton.mp hl2]
      simp

theorem parse_serialize (A : List Activity) (O : Overrides)
    (hA : ∀ a ∈ A, ActWf a) (hO : ∀ e ∈ O, OvWf e)
    (hnd : (O.map Prod.fst).Nodup) :
    parseActivitiesPure (serializeActivities A O) = some (A, O) := by
  rw [serializeActivities, parse_trim_nl, parseActivitiesPure,
    splitCh_withNl (serializeLines_no_nl A O hA hO),
    parseLinesFn_norm, normalizeLines_append_blank, ← parseLinesFn_norm,
    parseLinesFn, serializeLines]
  have hfilter : A.filter (fun x => !x.isRecurring) = A :=
    List.filter_eq_self.mpr (fun a ha => by rw [(hA a ha).recb]; rfl)
  rw [hfilter, run_acts A initPState _ hA]
  have hov1 : (A.foldl actStep initPState).overrides = [] :=
    (foldl_actStep A initPState).2
  rw [← List.append_nil ((O.map (fun e => ovLines e ++ [[]])).flatten)]
  rw [run_ovs O (A.foldl actStep initPState) [] hO
    (fun e _ => by rw [hov1]; rfl) hnd]
  rw [parseLinesAux]
  have h2 := foldl_ovStep O (A.foldl actStep initPState)
  have h3 := foldl_actStep A initPState
  rw [Option.map]
  rw [h2.1, h3.1, h2.2, h3.2]
  rfl

end Scheduler
namespace Scheduler

theorem matchItemMark_sublist {s r : Str} (h : matchItemMark s = some r) :
    List.Sublist r s := by
  unfold matchItemMark at h
  split at h
  · rename_i c rest
    split at h
    · have hr := Option.some.inj h
      have hsub : List.Sublist r rest := by
        rw [← hr]
        cases rest with
        | nil => simp
        | cons w t =>
          have hred : (match w :: t with
              | w :: r => if w.isWhitespace = true then r else w :: r
              | [] => ([] : Str)) = if w.isWhitespace = true then t else w :: t := rfl
          rw [hred]
          by_cases hw : w.isWhitespace
          · rw [if_pos hw]
            exact List.sublist_cons_self w t
          · rw [if_neg hw]
      have hsuf : rest <:+ ('-' :: ' ' :: '[' :: c :: ']' :: rest) :=
        ⟨['-', ' ', '[', c, ']'], rfl⟩
      exact hsub.trans hsuf.sublist
    · exact absurd h (by simp)
  · exact absurd h (by simp)

theorem stripItemMark_sublist : ∀ s : Str, List.Sublist (stripItemMark s) s
  | [] => by simp [stripItemMark]
  | c :: rest => by
    rw [stripItemMark]
    cases hm : matchItemMark (c :: rest) with
    | some r => exact matchItemMark_sublist hm
    | none => exact List.Sublist.cons₂ c (stripItemMark_sublist rest)

theorem mem_stripItemMark {x : Char} {s : Str} (h : x ∈ stripItemMark s) :
    x ∈ s := (stripItemMark_sublist s).subset h

end Scheduler
namespace Scheduler

theorem mem_setOv {e : Str × Override} : ∀ {m : Overrides} {r : Str}
    {v : Override}, e ∈ setOv m r v → e ∈ m ∨ e = (r, v)
  | [], r, v, h => by
    rw [setOv] at h
    exact Or.inr (List.mem_singleton.mp h)
  | (k, w) :: rest, r, v, h => by
    rw [setOv] at h
    by_cases hk : k = r
    · rw [if_pos hk] at h
      rcases List.mem_cons.mp h with rfl | h2
      · exact Or.inr (by rw [hk])
      · exact Or.inl (List.mem_cons_of_mem _ h2)
    · rw [if_neg hk] at h
      rcases List.mem_cons.mp h with rfl | h2
      · exact Or.inl (List.mem_cons_self _ _)
      · rcases mem_setOv h2 with h3 | h3
        · exact Or.inl (List.mem_cons_of_mem _ h3)
        · exact Or.inr h3

theorem keys_setOv {x : Str} : ∀ {m : Overrides} {r : Str} {v : Override},
    x ∈ (setOv m r v).map Prod.fst → x ∈ m.map Prod.fst ∨ x = r
  | [], r, v, h => by
    rw [setOv] at h
    simp at h
    exact Or.inr h
  | (k, w) :: rest, r, v, h => by
    rw [setOv] at h
    by_cases hk : k = r
    · rw [if_pos hk] at h
      simp only [List.map_cons, List.mem_cons] at h
      rcases h with rfl | h2
      · exact Or.inl (by simp)
      · exact Or.inl (by simp [h2])
    · rw [if_neg hk] at h
      simp only [List.map_cons, List.mem_cons] at h
      rcases h with rfl | h2
      · exact Or.inl (by simp)
      · rcases keys_setOv h2 with h3 | h3
        · exact Or.inl (by simp [h3])
        · exact Or.inr h3

theorem setOv_keys_nodup : ∀ {m : Overrides} {r : Str} {v : Override},
    (m.map Prod.fst).Nodup → ((setOv m r v).map Prod.fst).Nodup
  | [], r, v, _ => by simp [setOv]
  | (k, w) :: rest, r, v, h => by
    simp only [List.map_cons, List.nodup_cons] at h
    rw [setOv]
    by_cases hk : k = r
    · rw [if_pos hk]
      simp only [List.map_cons, List.nodup_cons]
      exact h
    · rw [if_neg hk]
      simp only [List.map_cons, List.nodup_cons]
      refine ⟨fun hm => ?_, setOv_keys_nodup h.2⟩
      rcases keys_setOv hm with h3 | h3
      · exact h.1 h3
      · exact hk h3

theorem mem_updOv {e : Str × Override} : ∀ {m : Overrides} {r : Str}
    {f : Override → Override}, e ∈ updOv m r f →
    e ∈ m ∨ ∃ w, (e.1, w) ∈ m ∧ e = (e.1, f w) ∧ e.1 = r
  | [], r, f, h => by rw [updOv] at h; simp at h
  | (k, w) :: rest, r, f, h => by
    rw [updOv] at h
    by_cases hk : k = r
    · rw [if_pos hk] at h
      rcases List.mem_cons.mp h with rfl | h2
      · exact Or.inr ⟨w, List.mem_cons_self _ _, rfl, hk⟩
      · rcases mem_updOv h2 with h3 | ⟨w2, hw2, he, hr⟩
        · exact Or.inl (List.mem_cons_of_mem _ h3)
        · exact Or.inr ⟨w2, List.mem_cons_of_mem _ hw2, he, hr⟩
    · rw [if_neg hk] at h
      rcases List.mem_cons.mp h with rfl | h2
      · exact Or.inl (List.mem_cons_self _ _)
      · rcases mem_updOv h2 with h3 | ⟨w2, hw2, he, hr⟩
        · exact Or.inl (List.mem_cons_of_mem _ h3)
        · exact Or.inr ⟨w2, List.mem_cons_of_mem _ hw2, he, hr⟩

theorem updOv_keys : ∀ (m : Overrides) (r : Str) (f : Override → Override),
    (updOv m r f).map Prod.fst = m.map Prod.fst
  | [], r, f => rfl
  | (k, w) :: rest, r, f => by
    rw [updOv]
    by_cases hk : k = r
    · rw [if_pos hk]
      simp [updOv_keys rest r f]
    · rw [if_neg hk]
      simp [updOv_keys rest r f]

theorem mem_setState {kv : Str × Bool} : ∀ {m : List (Str × Bool)} {k : Str}
    {b : Bool}, kv ∈ setState m k b → kv ∈ m ∨ kv.1 = k
  | [], k, b, h => by
    rw [setState] at h
    rw [List.mem_singleton.mp h]
    exact Or.inr rfl
  | (k0, b0) :: rest, k, b, h => by
    rw [setState] at h
    by_cases hk : k0 = k
    · rw [if_pos hk] at h
      rcases List.mem_cons.mp h with rfl | h2
      · exact Or.inr hk
      · exact Or.inl (List.mem_cons_of_mem _ h2)
    · rw [if_neg hk] at h
      rcases List.mem_cons.mp h with rfl | h2
      · exact Or.inl (List.mem_cons_self _ _)
      · rcases mem_setState h2 with h3 | h3
        · exact Or.inl (List.mem_cons_of_mem _ h3)
        · exact Or.inr h3

theorem keys_setState {x : Str} : ∀ {m : List (Str × Bool)} {k : Str} {b : Bool},
    x ∈ (setState m k b).map Prod.fst → x ∈ m.map Prod.fst ∨ x = k
  | [], k, b, h => by
    rw [setState] at h
    simp at h
    exact Or.inr h
  | (k0, b0) :: rest, k, b, h => by
    rw [setState] at h
    by_cases hk : k0 = k
    · rw [if_pos hk] at h
      simp only [List.map_cons, List.mem_cons] at h
      rcases h with rfl | h2
      · exact Or.inl (by simp)
      · exact Or.inl (by simp [h2])
    · rw [if_neg hk] at h
      simp only [List.map_cons, List.mem_cons] at h
      rcases h with rfl | h2
      · exact Or.inl (by simp)
      · rcases keys_setState h2 with h3 | h3
        · exact Or.inl (by simp [h3])
        · exact Or.inr h3

theorem setState_keys_nodup : ∀ {m : List (Str × Bool)} {k : Str} {b : Bool},
    (m.map Prod.fst).Nodup → ((setState m k b).map Prod.fst).Nodup
  | [], k, b, _ => by simp [setState]
  | (k0, b0) :: rest, k, b, h => by
    simp only [List.map_cons, List.nodup_cons] at h
    rw [setState]
    by_cases hk : k0 = k
    · rw [if_pos hk]
      simp only [List.map_cons, List.nodup_cons]
      exact h
    · rw [if_neg hk]
      simp only [List.map_cons, List.nodup_cons]
      refine ⟨fun hm => ?_, setState_keys_nodup h.2⟩
      rcases keys_setState hm with h3 | h3
      · exact h.1 h3
      · exact hk h3

theorem append_fresh_keys_nodup {m : Overrides} {r : Str} {v : Override}
    (h : (m.map Prod.fst).Nodup) (hr : r ∉ m.map Prod.fst) :
    ((m ++ [(r, v)]).map Prod.fst).Nodup := by
  rw [List.map_append]
  simp only [List.map_cons, List.map_nil]
  rw [List.nodup_append]
  refine ⟨h, by simp, ?_⟩
  intro x hx
  simp only [List.mem_singleton]
  intro he
  exact hr (he ▸ hx)

end Scheduler
namespace Scheduler

theorem jsTrim_trimRight_take {s : Str} (h : jsTrim s = s) (n : Nat) :
    jsTrim (jsTrimRight (s.take n)) = jsTrimRight (s.take n) := by
  cases s with
  | nil => simp [jsTrim, jsTrimLeft, jsTrimRight]
  | cons c cs =>
    have hcw : c.isWhitespace = false :=
      not_ws_head_of_trimLeft (jsTrimLeft_of_jsTrim h)
    cases n with
    | zero => simp [jsTrim, jsTrimLeft, jsTrimRight]
    | succ n2 =>
      rw [List.take_succ_cons, jsTrimRight_cons]
      cases hr : jsTrimRight (cs.take n2) with
      | nil =>
        show jsTrim (if c.isWhitespace = true then [] else [c])
            = if c.isWhitespace = true then ([] : Str) else [c]
        rw [if_neg (by simp [hcw])]
        rw [jsTrim_cons_not_ws hcw]
        rfl
      | cons d ds =>
        show jsTrim (c :: d :: ds) = c :: d :: ds
        rw [jsTrim_cons_not_ws hcw, ← hr, jsTrimRight_idem, hr]

theorem jsTrim_stripDoneTag {s : Str} (h : jsTrim s = s) :
    jsTrim (stripDoneTag s) = stripDoneTag s := by
  rw [stripDoneTag]
  exact jsTrim_trimRight_take h _

end Scheduler
namespace Scheduler

theorem actParts_inv (clean : Str) (hct : jsTrim clean = clean)
    (hcnl : '\n' ∉ clean) (d : Bool)
    (hdone : d = false → endsW clean ("[x]".toList) = false) :
    ActInv ⟨(if 1 < (splitCh '|' clean).length
             then jsTrim (joinCh '|' (splitCh '|' clean).tail) else clean),
            (if 1 < (splitCh '|' clean).length
             then jsTrim ((splitCh '|' clean).headD []) else []),
            [], d, false⟩ := by
  by_cases hlen : 1 < (splitCh '|' clean).length
  · simp only [if_pos hlen]
    refine ⟨rfl, jsTrim_idem _, jsTrim_idem _, ?_, ?_, ?_, ?_, by simp⟩
    · intro hm
      rcases mem_joinCh (mem_jsTrim hm) with he | ⟨p, hp, hxp⟩
      · exact absurd he (by decide)
      · exact hcnl (mem_of_mem_splitCh hxp (List.mem_of_mem_tail hp))
    · intro hm
      have hm2 := mem_jsTrim hm
      cases hsp : splitCh '|' clean with
      | nil => exact absurd hsp (splitCh_ne_nil _ _)
      | cons p ps =>
        rw [hsp] at hm2
        simp only [List.headD_cons] at hm2
        exact hcnl (mem_of_mem_splitCh hm2 (hsp ▸ List.mem_cons_self p ps))
    · intro hm
      have hm2 := mem_jsTrim hm
      cases hsp : splitCh '|' clean with
      | nil => exact absurd hsp (splitCh_ne_nil _ _)
      | cons p ps =>
        rw [hsp] at hm2
        simp only [List.headD_cons] at hm2
        exact not_mem_of_mem_splitCh (hsp ▸ List.mem_cons_self p ps) hm2
    · intro hdf
      have hc := hdone hdf
      cases hsp : splitCh '|' clean with
      | nil => exact absurd hsp (splitCh_ne_nil _ _)
      | cons p ps =>
        cases ps with
        | nil => rw [hsp] at hlen; simp at hlen
        | cons q qs =>
          have hjoin : clean = p ++ '|' :: joinCh '|' (q :: qs) := by
            conv_lhs => rw [← joinCh_splitCh '|' clean, hsp]
            rfl
          have hJsuf : joinCh '|' (q :: qs) <:+ clean :=
            ⟨p ++ ['|'], by rw [hjoin]; simp⟩
          have hJr : jsTrimRight (joinCh '|' (q :: qs)) = joinCh '|' (q :: qs) :=
            suffix_trimRight_stable hJsuf (jsTrimRight_of_jsTrim hct)
          have htitle : jsTrim (joinCh '|' (q :: qs))
              = jsTrimLeft (joinCh '|' (q :: qs)) := by
            rw [jsTrim, hJr]
          have hsuf2 : jsTrim (joinCh '|' (q :: qs)) <:+ clean := by
            rw [htitle]
            exact (jsTrimLeft_suffix _).trans hJsuf
          show endsW (jsTrim (joinCh '|' (q :: qs))) ("[x]".toList) = false
          cases hE : endsW (jsTrim (joinCh '|' (q :: qs))) ("[x]".toList) with
          | false => rfl
          | true => exact absurd (endsW_of_suffix hsuf2 hE) (by rw [hc]; simp)
  · simp only [if_neg hlen]
    exact ⟨rfl, hct, rfl, hcnl, by simp, by simp, hdone, by simp⟩

theorem parseActHeader_inv {line : Str} (hnl : '\n' ∉ line) :
    ActInv (parseActHeader line) := by
  have hpt : jsTrim (jsTrim (line.drop 9)) = jsTrim (line.drop 9) := jsTrim_idem _
  have hpnl : '\n' ∉ jsTrim (line.drop 9) :=
    not_mem_jsTrim (fun hm => hnl (List.mem_of_mem_drop hm))
  by_cases hd : endsW (jsTrim (line.drop 9)) ("[x]".toList) = true
  · have key := actParts_inv (stripDoneTag (jsTrim (line.drop 9)))
      (jsTrim_stripDoneTag hpt)
      (fun hm => hpnl (List.mem_of_mem_take (mem_jsTrimRight hm)))
      true (fun hf => absurd hf (by simp))
    have hact : parseActHeader line
        = ⟨(if 1 < (splitCh '|' (stripDoneTag (jsTrim (line.drop 9)))).length
            then jsTrim (joinCh '|' (splitCh '|' (stripDoneTag (jsTrim (line.drop 9)))).tail)
            else stripDoneTag (jsTrim (line.drop 9))),
           (if 1 < (splitCh '|' (stripDoneTag (jsTrim (line.drop 9)))).length
            then jsTrim ((splitCh '|' (stripDoneTag (jsTrim (line.drop 9)))).headD [])
            else []),
           [], true, false⟩ := by
      rw [parseActHeader]
      simp only [hd, if_true]
    rw [hact]
    exact key
  · have hd2 : endsW (jsTrim (line.drop 9)) ("[x]".toList) = false :=
      Bool.not_eq_true _ ▸ Bool.of_not_eq_true hd
    have key := actParts_inv (jsTrim (line.drop 9)) hpt hpnl false (fun _ => hd2)
    have hact : parseActHeader line
        = ⟨(if 1 < (splitCh '|' (jsTrim (line.drop 9))).length
            then jsTrim (joinCh '|' (splitCh '|' (jsTrim (line.drop 9))).tail)
            else jsTrim (line.drop 9)),
           (if 1 < (splitCh '|' (jsTrim (line.drop 9))).length
            then jsTrim ((splitCh '|' (jsTrim (line.drop 9))).headD [])
            else []),
           [], false, false⟩ := by
      rw [parseActHeader]
      simp only [hd2]
      rfl
    rw [hact]
    exact key

end Scheduler
namespace Scheduler

theorem flushCur_actInv {st : PState} (hI : StInv st) :
    ∀ a ∈ (flushCur st).activities, ActInv a := by
  rw [flushCur]
  cases hc : st.current with
  | none => exact hI.1
  | some a0 =>
    intro a ha
    rcases List.mem_append.mp ha with h1 | h1
    · exact hI.1 a h1
    · rw [List.mem_singleton.mp h1]
      exact hI.2.1 a0 hc

theorem actBranch_inv {st : PState} {line : Str} (hI : StInv st)
    (hlnl : '\n' ∉ line) :
    StInv { flushCur st with current := some (parseActHeader line), currentOverride := none } := by
  refine ⟨flushCur_actInv hI, ?_, ?_, ?_⟩
  · intro a ha
    rw [← Option.some.inj ha]
    exact parseActHeader_inv hlnl
  · intro e he
    rw [flushCur_overrides] at he
    exact hI.2.2.1 e he
  · show ((flushCur st).overrides.map Prod.fst).Nodup
    rw [flushCur_overrides]
    exact hI.2.2.2

theorem ovBranch_inv {st : PState} {recId : Str} {d : Bool} (hI : StInv st)
    (hrnl : '\n' ∉ recId) :
    StInv { flushCur st with overrides := setOv (flushCur st).overrides recId ⟨d, [], []⟩, currentOverride := some recId } := by
  refine ⟨flushCur_actInv hI, ?_, ?_, ?_⟩
  · intro a ha
    have : (none : Option Activity) = some a := by
      rw [← flushCur_current st]
      exact ha
    exact absurd this (by simp)
  · intro e he
    rcases mem_setOv he with h1 | h1
    · rw [flushCur_overrides] at h1
      exact hI.2.2.1 e h1
    · rw [h1]
      exact ⟨hrnl, fun hne => absurd rfl hne, by simp, by simp, by simp⟩
  · show ((setOv (flushCur st).overrides recId ⟨d, [], []⟩).map Prod.fst).Nodup
    rw [flushCur_overrides]
    exact setOv_keys_nodup hI.2.2.2

end Scheduler
namespace Scheduler

theorem stepLine_inv {st st2 : PState} {raw : Str} (hI : StInv st)
    (hnl : '\n' ∉ raw) (h : stepLine st raw = some st2) : StInv st2 := by
  have hlnl : '\n' ∉ jsTrim raw := not_mem_jsTrim hnl
  simp only [stepLine] at h
  by_cases h0 : jsTrim raw = []
  · rw [if_pos h0] at h
    rw [← Option.some.inj h]
    exact hI
  rw [if_neg h0] at h
  by_cases h1 : startsW (jsTrim raw) ("Activity:".toList) = true
  · rw [if_pos h1] at h
    rw [← Option.some.inj h]
    exact actBranch_inv hI hlnl
  rw [if_neg h1] at h
  by_cases h2 : startsW (jsTrim raw) ("RecurringOverride:".toList) = true
  · rw [if_pos h2] at h
    rw [← Option.some.inj h]
    have hpnl : '\n' ∉ jsTrim ((jsTrim raw).drop 18) :=
      not_mem_jsTrim (fun hm => hlnl (List.mem_of_mem_drop hm))
    by_cases hd : endsW (jsTrim ((jsTrim raw).drop 18)) ("[x]".toList) = true
    · simp only [hd, if_true]
      exact ovBranch_inv hI
        (fun hm => hpnl (List.mem_of_mem_take (mem_jsTrimRight hm)))
    · simp only [hd]
      simp only [Bool.false_eq_true, if_false]
      exact ovBranch_inv hI hpnl
  rw [if_neg h2] at h
  by_cases h3 : startsW (jsTrim raw) ("-".toList) = true
  · rw [if_pos h3] at h
    cases hc : st.current with
    | some a =>
      rw [hc] at h
      rw [← Option.some.inj h]
      obtain ⟨i1, i2, i3, i4, i5, i6, i7, i8⟩ := hI.2.1 a hc
      refine ⟨hI.1, ?_, hI.2.2.1, hI.2.2.2⟩
      intro a2 ha2
      rw [← Option.some.inj ha2]
      refine ⟨i1, i2, i3, i4, i5, i6, i7, ?_⟩
      intro i hi
      rcases List.mem_append.mp hi with hi2 | hi2
      · exact i8 i hi2
      · rw [List.mem_singleton.mp hi2]
        exact fun hm => hlnl (mem_stripItemMark hm)
    | none =>
      rw [hc] at h
      cases hco : st.currentOverride with
      | some k =>
        rw [hco] at h
        rw [← Option.some.inj h]
        refine ⟨hI.1, fun a ha => absurd ha (by simp), ?_, ?_⟩
        · intro e he
          rcases mem_updOv he with h4 | ⟨w, hw, he2, hr⟩
          · exact hI.2.2.1 e h4
          · obtain ⟨w1, w2, w3, w4, w5⟩ := hI.2.2.1 (e.1, w) hw
            rw [he2]
            refine ⟨w1, w2, w3, w4, ?_⟩
            intro i hi
            rcases List.mem_append.mp hi with hi2 | hi2
            · exact w5 i hi2
            · rw [List.mem_singleton.mp hi2]
              exact fun hm => hlnl (mem_stripItemMark hm)
        · show ((updOv st.overrides k _).map Prod.fst).Nodup
          rw [updOv_keys]
          exact hI.2.2.2
      | none =>
        rw [hco] at h
        rw [← Option.some.inj h]
        exact hI
  rw [if_neg h3] at h
  by_cases h4 : startsW (jsTrim raw) ("ItemState:".toList) = true
  · rw [if_pos h4] at h
    have hpnl : '\n' ∉ jsTrim ((jsTrim raw).drop 10) :=
      not_mem_jsTrim (fun hm => hlnl (List.mem_of_mem_drop hm))
    cases hsp : splitCh '|' (jsTrim ((jsTrim raw).drop 10)) with
    | nil => exact absurd hsp (splitCh_ne_nil _ _)
    | cons recId rest =>
      rw [hsp] at h
      cases rest with
      | nil => simp at h
      | cons key rest2 =>
        cases rest2 with
        | nil => simp at h
        | cons stateF rest3 =>
          have hrmem : recId ∈ splitCh '|' (jsTrim ((jsTrim raw).drop 10)) :=
            hsp ▸ List.mem_cons_self _ _
          have hkmem : key ∈ splitCh '|' (jsTrim ((jsTrim raw).drop 10)) :=
            hsp ▸ List.mem_cons_of_mem _ (List.mem_cons_self _ _)
          have hrbar : '|' ∉ recId := not_mem_of_mem_splitCh hrmem
          have hrnl : '\n' ∉ recId :=
            fun hm => hpnl (mem_of_mem_splitCh hm hrmem)
          have hkbar : '|' ∉ key := not_mem_of_mem_splitCh hkmem
          have hknl : '\n' ∉ key :=
            fun hm => hpnl (mem_of_mem_splitCh hm hkmem)
          rw [← Option.some.inj h]
          have hm1 : (∀ e ∈ (if (findOv st.overrides recId).isNone
                then st.overrides ++ [(recId, ⟨false, [], []⟩)]
                else st.overrides), OvInv e)
              ∧ (((if (findOv st.overrides recId).isNone
                then st.overrides ++ [(recId, ⟨false, [], []⟩)]
                else st.overrides) : Overrides).map Prod.fst).Nodup := by
            by_cases hf : (findOv st.overrides recId).isNone = true
            · rw [if_pos hf]
              constructor
              · intro e he
                rcases List.mem_append.mp he with h5 | h5
                · exact hI.2.2.1 e h5
                · rw [List.mem_singleton.mp h5]
                  exact ⟨hrnl, fun hne => absurd rfl hne, by simp, by simp, by simp⟩
              · refine append_fresh_keys_nodup hI.2.2.2 ?_
                rw [← findOv_eq_none_iff]
                exact Option.isNone_iff_eq_none.mp hf
            · rw [if_neg hf]
              exact ⟨hI.2.2.1, hI.2.2.2⟩
          refine ⟨hI.1, hI.2.1, ?_, ?_⟩
          · intro e he
            rcases mem_updOv he with h5 | ⟨w, hw, he2, hr⟩
            · exact hm1.1 e h5
            · obtain ⟨w1, w2, w3, w4, w5⟩ := hm1.1 (e.1, w) hw
              rw [he2]
              refine ⟨w1, fun _ => hr ▸ hrbar, ?_, setState_keys_nodup w4, w5⟩
              intro kv hkv
              rcases mem_setState hkv with h6 | h6
              · exact w3 kv h6
              · rw [h6]
                exact ⟨hknl, hkbar⟩
          · show ((updOv _ recId _).map Prod.fst).Nodup
            rw [updOv_keys]
            exact hm1.2
  · rw [if_neg h4] at h
    rw [← Option.some.inj h]
    exact hI

end Scheduler
namespace Scheduler

theorem initPState_inv : StInv initPState := by
  refine ⟨by simp [initPState], ?_, by simp [initPState], by simp [initPState]⟩
  intro a ha
  exact absurd ha (by simp [initPState])

theorem parseLinesAux_inv : ∀ (ls : List Str) (st st2 : PState), StInv st →
    (∀ l ∈ ls, '\n' ∉ l) → parseLinesAux st ls = some st2 → StInv st2
  | [], st, st2, hI, _, h => by
    rw [parseLinesAux] at h
    rw [← Option.some.inj h]
    exact hI
  | l :: ls, st, st2, hI, hnl, h => by
    rw [parseLinesAux] at h
    cases hs : stepLine st l with
    | none => rw [hs] at h; exact absurd h (by simp)
    | some stm =>
      rw [hs] at h
      exact parseLinesAux_inv ls stm st2
        (stepLine_inv hI (hnl l (List.mem_cons_self l ls)) hs)
        (fun l2 h2 => hnl l2 (List.mem_cons_of_mem l h2)) h

theorem parse_inv {t : Str} {A : List Activity} {O : Overrides}
    (h : parseActivitiesPure t = some (A, O)) :
    (∀ a ∈ A, ActInv a) ∧ (∀ e ∈ O, OvInv e) ∧ (O.map Prod.fst).Nodup := by
  rw [parseActivitiesPure, parseLinesFn] at h
  cases haux : parseLinesAux initPState (splitCh '\n' t) with
  | none => rw [haux] at h; exact absurd h (by simp)
  | some stf =>
    rw [haux] at h
    have hinv := parseLinesAux_inv _ _ _ initPState_inv
      (fun l hl => not_mem_of_mem_splitCh hl) haux
    rw [Option.map] at h
    have hAO := Option.some.inj h
    have hA : (flushCur stf).activities = A := congrArg Prod.fst hAO
    have hO : stf.overrides = O := congrArg Prod.snd hAO
    refine ⟨?_, ?_, ?_⟩
    · intro a ha
      exact flushCur_actInv hinv a (hA ▸ ha)
    · intro e he
      exact hinv.2.2.1 e (hO ▸ he)
    · exact hO ▸ hinv.2.2.2

end Scheduler
namespace Scheduler

/-- C1 (amended): if parsing a record text succeeds, then serializing the
parsed activities and overrides and parsing again reproduces exactly the
same data, provided the parsed content reserializes unambiguously: no
activity with empty time has a bar in its title, every override id is
trim-stable and (when the entry is not done) does not end in the done
marker, and every item text is right-trim-stable and (when not done) free
of the done marker.  All other invariants needed for the round trip are
proved to hold for every parser output (`parse_inv`). -/
theorem C1_round_trip_amended (t : Str) (A : List Activity) (O : Overrides)
    (hp : parseActivitiesPure t = some (A, O))
    (H1 : ∀ a ∈ A, a.time = [] → '|' ∉ a.title)
    (H2 : ∀ a ∈ A, ∀ i ∈ a.items, WfItemText i)
    (H3 : ∀ e ∈ O, jsTrim e.1 = e.1)
    (H4 : ∀ e ∈ O, e.2.done = false → endsW e.1 ("[x]".toList) = false)
    (H5 : ∀ e ∈ O, ∀ i ∈ e.2.itemOverrides, WfItemText i) :
    parseActivitiesPure (serializeActivities A O) = some (A, O) := by
  obtain ⟨hAi, hOi, hnd⟩ := parse_inv hp
  refine parse_serialize A O ?_ ?_ hnd
  · intro a ha
    obtain ⟨i1, i2, i3, i4, i5, i6, i7, i8⟩ := hAi a ha
    exact ⟨i1, i2, i3, i4, i5, i6, i7, H1 a ha,
      fun i hi => ⟨i8 i hi, H2 a ha i hi⟩⟩
  · intro e he
    obtain ⟨o1, o2, o3, o4, o5⟩ := hOi e he
    exact ⟨H3 e he, o1, H4 e he, o2,
      fun i hi => ⟨o5 i hi, H5 e he i hi⟩, o3, o4⟩

end Scheduler
namespace Scheduler

/-- Witness: a concrete two-block record round-trips through
serialize-then-parse. -/
theorem C1_round_trip_amended_witness :
    parseActivitiesPure (serializeActivities
        [⟨"a".toList, [], [⟨"b".toList, false⟩], false, false⟩]
        [("r".toList, ⟨true, [], [("k".toList, true)]⟩)])
      = some ([⟨"a".toList, [], [⟨"b".toList, false⟩], false, false⟩],
          [("r".toList, ⟨true, [], [("k".toList, true)]⟩)]) :=
  C1_round_trip_amended
    "Activity: a\n- [ ] b\nRecurringOverride: r [x]\nItemState: r|k|x".toList
    [⟨"a".toList, [], [⟨"b".toList, false⟩], false, false⟩]
    [("r".toList, ⟨true, [], [("k".toList, true)]⟩)]
    (by decide) (by decide) (by decide) (by decide) (by decide) (by decide)

end Scheduler
namespace Scheduler

theorem normalizeLines_append (x y : List Str) :
    normalizeLines (x ++ y) = normalizeLines x ++ normalizeLines y := by
  simp [normalizeLines]

theorem normalizeLines_flatten_blocks {α : Type} (g : α → List Str) :
    ∀ xs : List α,
    normalizeLines ((xs.map (fun x => g x ++ [[]])).flatten)
      = normalizeLines ((xs.map g).flatten)
  | [] => rfl
  | x :: xs => by
    rw [List.map_cons, List.flatten_cons, List.map_cons, List.flatten_cons,
      normalizeLines_append, normalizeLines_append, normalizeLines_append,
      normalizeLines_flatten_blocks g xs]
    rw [show normalizeLines [[]] = [] from rfl]
    simp

theorem serializeLines_no_nl_of (A : List Activity) (O : Overrides)
    (hA : ∀ a ∈ A, actNoNl a) (hO : ∀ e ∈ O, ovNoNl e) :
    ∀ l ∈ serializeLines A O, '\n' ∉ l := by
  intro l hl
  rw [serializeLines] at hl
  rcases List.mem_append.mp hl with hl | hl
  · obtain ⟨blk, hblk, hlblk⟩ := List.mem_flatten.mp hl
    obtain ⟨a, ha, rfl⟩ := List.mem_map.mp hblk
    obtain ⟨ha1, ha2, ha3⟩ := hA a (List.mem_filter.mp ha).1
    rcases List.mem_append.mp hlblk with hl2 | hl2
    · rw [actLines] at hl2
      rcases List.mem_cons.mp hl2 with rfl | hl3
      · exact actHeaderLine_no_nl ha1 ha2
      · obtain ⟨i, hi, rfl⟩ := List.mem_map.mp hl3
        exact itemLine_no_nl (ha3 i hi)
    · rw [List.mem_singleton.mp hl2]
      simp
  · obtain ⟨blk, hblk, hlblk⟩ := List.mem_flatten.mp hl
    obtain ⟨e, he, rfl⟩ := List.mem_map.mp hblk
    obtain ⟨he1, he2, he3⟩ := hO e he
    rcases List.mem_append.mp hlblk with hl2 | hl2
    · rw [ovLines] at hl2
      rcases List.mem_cons.mp hl2 with rfl | hl3
      · exact ovHeaderLine_no_nl he1
      · rcases List.mem_append.mp hl3 with hl4 | hl4
        · obtain ⟨i, hi, rfl⟩ := List.mem_map.mp hl4
          exact itemLine_no_nl (he2 i hi)
        · obtain ⟨kv, hkv, rfl⟩ := List.mem_map.mp hl4
          exact stateLine_no_nl he1 (he3 kv hkv)
    · rw [List.mem_singleton.mp hl2]
      simp

/-- C2 (amended): the nonblank lines `serializeActivities` emits are
exactly the blocks of the one-off (non-recurring) activities, in order,
followed by one `RecurringOverride:` block for EVERY override entry -
including all-default entries; the source loop has no non-default filter. -/
theorem C2_serialize_lines (A : List Activity) (O : Overrides)
    (hA : ∀ a ∈ A, actNoNl a) (hO : ∀ e ∈ O, ovNoNl e) :
    normalizeLines (splitCh '\n' (serializeActivities A O))
      = normalizeLines (((A.filter (fun a => !a.isRecurring)).map actLines).flatten
          ++ (O.map ovLines).flatten) := by
  rw [serializeActivities, splitCh_append_sep, normalizeLines_append_blank,
    norm_split_trim, splitCh_withNl (serializeLines_no_nl_of A O hA hO),
    normalizeLines_append_blank, serializeLines, normalizeLines_append,
    normalizeLines_flatten_blocks, normalizeLines_flatten_blocks,
    ← normalizeLines_append]

end Scheduler
namespace Scheduler

/-- Witness: the serialized output of one activity and one ALL-DEFAULT
override entry still contains the override block. -/
theorem C2_serialize_lines_witness :
    normalizeLines (splitCh '\n' (serializeActivities
        [⟨"a".toList, [], [], false, false⟩]
        [("r1".toList, ⟨false, [], []⟩)]))
      = normalizeLines ((([(⟨"a".toList, [], [], false, false⟩ : Activity)].filter (fun a => !a.isRecurring)).map actLines).flatten
          ++ ([("r1".toList, (⟨false, [], []⟩ : Override))].map ovLines).flatten) :=
  C2_serialize_lines
    [⟨"a".toList, [], [], false, false⟩] [("r1".toList, ⟨false, [], []⟩)]
    (by intro a ha; rw [List.mem_singleton.mp ha]; exact ⟨by decide, by decide, by simp⟩)
    (by intro e he; rw [List.mem_singleton.mp he]; exact ⟨by decide, by simp, by simp⟩)

end Scheduler
namespace Scheduler

theorem stepLine_isSome (st : PState) (raw : Str)
    (hok : itemStateArityOk raw = true) : (stepLine st raw).isSome = true := by
  simp only [stepLine]
  by_cases h0 : jsTrim raw = []
  · rw [if_pos h0]; rfl
  rw [if_neg h0]
  by_cases h1 : startsW (jsTrim raw) ("Activity:".toList) = true
  · rw [if_pos h1]; rfl
  rw [if_neg h1]
  by_cases h2 : startsW (jsTrim raw) ("RecurringOverride:".toList) = true
  · rw [if_pos h2]; rfl
  rw [if_neg h2]
  by_cases h3 : startsW (jsTrim raw) ("-".toList) = true
  · rw [if_pos h3]
    cases st.current with
    | some a => rfl
    | none =>
      cases st.currentOverride with
      | some k => rfl
      | none => rfl
  rw [if_neg h3]
  by_cases h4 : startsW (jsTrim raw) ("ItemState:".toList) = true
  · rw [if_pos h4]
    rw [itemStateArityOk, h4] at hok
    simp only [Bool.not_true, Bool.false_or, decide_eq_true_eq] at hok
    cases hsp : splitCh '|' (jsTrim ((jsTrim raw).drop 10)) with
    | nil => rw [hsp] at hok; simp at hok
    | cons p1 r1 =>
      cases r1 with
      | nil => rw [hsp] at hok; simp at hok
      | cons p2 r2 =>
        cases r2 with
        | nil => rw [hsp] at hok; simp at hok
        | cons p3 r3 => rfl
  · rw [if_neg h4]; rfl

theorem stepLine_unrecognized (st : PState) {l : Str}
    (hl : unrecognizedLine l = true) : stepLine st l = some st := by
  rw [unrecognizedLine] at hl
  simp only [Bool.and_eq_true, Bool.not_eq_true'] at hl
  obtain ⟨⟨⟨hu1, hu2⟩, hu3⟩, hu4⟩ := hl
  simp only [stepLine]
  by_cases h0 : jsTrim l = []
  · rw [if_pos h0]
  · rw [if_neg h0, if_neg (by rw [hu1]; exact Bool.false_ne_true),
      if_neg (by rw [hu2]; exact Bool.false_ne_true),
      if_neg (by rw [hu3]; exact Bool.false_ne_true),
      if_neg (by rw [hu4]; exact Bool.false_ne_true)]

theorem parseLinesAux_isSome : ∀ (ls : List Str) (st : PState),
    (∀ l ∈ ls, itemStateArityOk l = true) →
    (parseLinesAux st ls).isSome = true
  | [], st, _ => rfl
  | l :: ls, st, hok => by
    rw [parseLinesAux]
    cases hs : stepLine st l with
    | none =>
      have := stepLine_isSome st l (hok l (List.mem_cons_self l ls))
      rw [hs] at this
      exact absurd this (by simp)
    | some st2 =>
      exact parseLinesAux_isSome ls st2
        (fun l2 h2 => hok l2 (List.mem_cons_of_mem l h2))

/-- C3 (amended): `parseActivities` returns normally on every input whose
`ItemState:` lines each split into at least three bar-fields (fewer fields
throw a TypeError, modelled as `none`), and a line no branch recognizes is
skipped without affecting the rest of the parse. -/
theorem C3_total_and_skip (t : Str) (pre post : List Str) (l : Str)
    (hok : ∀ l2 ∈ splitCh '\n' t, itemStateArityOk l2 = true)
    (hl : unrecognizedLine l = true) :
    (parseActivitiesPure t).isSome = true
    ∧ parseLinesFn (pre ++ l :: post) = parseLinesFn (pre ++ post) := by
  constructor
  · rw [parseActivitiesPure, parseLinesFn]
    have := parseLinesAux_isSome (splitCh '\n' t) initPState hok
    cases haux : parseLinesAux initPState (splitCh '\n' t) with
    | none => rw [haux] at this; exact absurd this (by simp)
    | some stf => rfl
  · rw [parseLinesFn, parseLinesFn, parseLinesAux_append, parseLinesAux_append]
    congr 1
    cases parseLinesAux initPState pre with
    | none => rfl
    | some st2 =>
      exact parseLinesAux_cons_some (stepLine_unrecognized st2 hl) post

end Scheduler
namespace Scheduler

/-- Witness: a record with a three-field `ItemState:` line parses to
`some`, and inserting a garbage line between two lines leaves the parse
unchanged. -/
theorem C3_total_and_skip_witness :
    (parseActivitiesPure "Activity: a\nItemState: r|k|x\ngarbage".toList).isSome = true
    ∧ parseLinesFn (["Activity: a".toList] ++ "garbage".toList :: ["- [ ] b".toList])
      = parseLinesFn (["Activity: a".toList] ++ ["- [ ] b".toList]) :=
  C3_total_and_skip "Activity: a\nItemState: r|k|x\ngarbage".toList
    ["Activity: a".toList] ["- [ ] b".toList] "garbage".toList
    (by decide) (by decide)

end Scheduler
